import Mathlib

/-!
Verification development for the value-log / write-ahead-log subsystem
(`src/value.go`) of the badger fork.

Shallow embedding conventions:
* byte strings are `List Nat` (each element is a byte value `< 256`);
* Go machine integers are `Nat`, with an explicit `% 2 ^ w` wherever the
  Go code performs a truncating cast;
* the AES-CTR keystream is an explicit function parameter of type
  `Keystream` — the codec only ever XORs data with keystream bytes, so
  every theorem below is proved for an arbitrary keystream;
* fallible operations return `Option` / `Except`.

Components of the repository that `src/value.go` uses but that are not
under `src/` (the `header` codec from `structs.go`, `y.ParseTs`,
`isDeletedOrExpired`, `badgerMove`, `shouldWriteValueToLSM`,
`maxHeaderSize`, the LSM `db.get`) are modelled from the specification;
each such definition carries a doc comment starting with
`Modelled from the spec:`.
-/

/-- Big-endian 4-byte encoding of a 32-bit value
(Go `binary.BigEndian.PutUint32`; `byte(v >> k)` is `v / 2 ^ k % 256`). -/
def u32be (x : Nat) : List Nat :=
  [x / 2 ^ 24 % 256, x / 2 ^ 16 % 256, x / 2 ^ 8 % 256, x % 256]

/-- Big-endian 8-byte encoding of a 64-bit value
(Go `binary.BigEndian.PutUint64`). -/
def u64be (x : Nat) : List Nat :=
  [x / 2 ^ 56 % 256, x / 2 ^ 48 % 256, x / 2 ^ 40 % 256, x / 2 ^ 32 % 256,
   x / 2 ^ 24 % 256, x / 2 ^ 16 % 256, x / 2 ^ 8 % 256, x % 256]

/-- Big-endian interpretation of a byte string
(Go `binary.BigEndian.Uint32` / `y.BytesToU32` on a 4-byte slice). -/
def beBytesToNat (bs : List Nat) : Nat :=
  bs.foldl (fun a b => a * 256 + b) 0

/-- The CRC-32C (Castagnoli) polynomial, reflected form, as used by
Go's `crc32.MakeTable(crc32.Castagnoli)` (`y.CastagnoliCrcTable`). -/
def crcPoly : Nat := 0x82F63B78

/-- One bit step of the reflected CRC-32C computation. -/
def crcStep1 (c : Nat) : Nat :=
  if c % 2 = 1 then (c / 2) ^^^ crcPoly else c / 2

/-- Absorb one byte into a running CRC-32C state. -/
def crcStepByte (c b : Nat) : Nat :=
  crcStep1 (crcStep1 (crcStep1 (crcStep1
    (crcStep1 (crcStep1 (crcStep1 (crcStep1 (c ^^^ b % 256))))))))

/-- CRC-32C (Castagnoli) of a byte string, as computed by Go's
`hash/crc32` with `y.CastagnoliCrcTable`. -/
def crc32c (bs : List Nat) : Nat :=
  (bs.foldl crcStepByte 0xFFFFFFFF) ^^^ 0xFFFFFFFF

/-- XOR a byte string against a keystream `f`, starting at stream
position `i` (the pure content of `y.XORBlockStream` /
`y.XORBlockAllocate`: AES-CTR is a stream cipher, so encryption and
decryption are position-wise XOR with the keystream byte). -/
def xorKeystream (f : Nat → Nat) : Nat → List Nat → List Nat
  | _, [] => []
  | i, b :: bs => (b ^^^ f i) :: xorKeystream f (i + 1) bs

/-- LEB128 encoding with a fuel parameter for structural recursion;
`fuel ≥ x` always suffices. -/
def putUvarintAux : Nat → Nat → List Nat
  | 0, x => [x % 128]
  | fuel + 1, x => if x < 128 then [x] else (x % 128 + 128) :: putUvarintAux fuel (x / 128)

/-- Modelled from the spec: the header "is a variable-length encoding"
and "implementation free to choose varint encoding; the same encoding
must be used everywhere" (§3).  We use the LEB128 encoding of Go's
`binary.PutUvarint`, the encoding the repository uses. -/
def putUvarint (x : Nat) : List Nat := putUvarintAux x x

/-- Modelled from the spec: LEB128 decoding (Go `binary.Uvarint` /
`binary.ReadUvarint`).  Returns the decoded value and the number of
bytes consumed. -/
def readUvarint : List Nat → Option (Nat × Nat)
  | [] => none
  | b :: rest =>
    if b < 128 then some (b, 1)
    else (readUvarint rest).map fun p => (b - 128 + 128 * p.1, p.2 + 1)

/-- Modelled from the spec: record header `{klen, vlen, expires_at,
meta, user_meta}` (§3).  The encoding is the one from the repository's
`structs.go`: `meta` byte, `userMeta` byte, then LEB128 varints of
`klen`, `vlen`, `expiresAt`. -/
structure header where
  klen : Nat
  vlen : Nat
  expiresAt : Nat
  meta : Nat
  userMeta : Nat
deriving DecidableEq, Repr

/-- Modelled from the spec: `header.Encode` — byte layout
`| meta | userMeta | klen | vlen | expiresAt |`. -/
def headerEncode (h : header) : List Nat :=
  h.meta :: h.userMeta ::
    (putUvarint h.klen ++ putUvarint h.vlen ++ putUvarint h.expiresAt)

/-- Modelled from the spec: `header.Decode` / `header.DecodeFrom` —
decodes a header from the front of a byte string, returning the header
and the number of bytes consumed.  The decoded key and value lengths
are truncated to `uint32` as in the source (`h.klen = uint32(klen)`). -/
def headerDecode : List Nat → Option (header × Nat)
  | m :: u :: rest =>
    match readUvarint rest with
    | none => none
    | some (k, n1) =>
      match readUvarint (rest.drop n1) with
      | none => none
      | some (v, n2) =>
        match readUvarint ((rest.drop n1).drop n2) with
        | none => none
        | some (x, n3) => some (⟨k % 2 ^ 32, v % 2 ^ 32, x, m, u⟩, 2 + (n1 + n2 + n3))
  | _ => none

/-- `maxHeaderSize`. Modelled from the spec: "`max_header_size` must be
exported as a compile-time constant" (§6); 2 bytes plus three maximal
varints (5 + 5 + 10). -/
def maxHeaderSize : Nat := 22

/-- Meta flag bit: tombstone (`bitDelete`). -/
def bitDelete : Nat := 1

/-- Meta flag bit: value stored in the vlog (`bitValuePointer`). -/
def bitValuePointer : Nat := 2

/-- Meta flag bit: earlier versions discardable (`bitDiscardEarlierVersions`). -/
def bitDiscardEarlierVersions : Nat := 4

/-- Meta flag bit: merge-operator entry (`bitMergeEntry`). -/
def bitMergeEntry : Nat := 8

/-- Meta flag bit: entry belongs to an open transaction (`bitTxn`). -/
def bitTxn : Nat := 64

/-- Meta flag bit: end-of-transaction marker (`bitFinTxn`). -/
def bitFinTxn : Nat := 128

/-- Size of the per-segment header: 8-byte key id plus 12-byte base IV
(`lfHeaderSize`). -/
def lfHeaderSize : Nat := 20

/-- Maximum vlog file size: the largest `uint32` (`maxVlogFileSize`). -/
def maxVlogFileSize : Nat := 2 ^ 32 - 1

/-- The logical log entry (`Entry` in the source).  `offset` and `hlen`
are the fields the read path fills in; `skipVlog` is the upstream flag
consulted by the writer. -/
structure Entry where
  Key : List Nat
  Value : List Nat
  UserMeta : Nat
  ExpiresAt : Nat
  meta : Nat
  offset : Nat := 0
  hlen : Nat := 0
  skipVlog : Bool := false
deriving DecidableEq, Repr

/-- A value pointer `(fid, len, offset)` (`valuePointer` in the source). -/
structure ValuePointer where
  Fid : Nat
  Len : Nat
  Offset : Nat
deriving DecidableEq, Repr

/-- An AES data key from the key registry (`pb.DataKey`): its id and raw
key bytes.  `KeyId = 0` means plaintext. -/
structure DataKey where
  KeyId : Nat
  Data : List Nat
deriving DecidableEq, Repr

/-- The data fields of `logFile` that the codec depends on: file id,
optional data key, and the 12-byte base IV. -/
structure logFileMeta where
  fid : Nat
  dataKey : Option DataKey
  baseIV : List Nat
deriving DecidableEq, Repr

/-- An abstract AES-CTR keystream: key bytes and IV to the byte at a
stream position.  All codec theorems hold for an arbitrary keystream. -/
abbrev Keystream := List Nat → List Nat → Nat → Nat

/-- `logFile.encryptionEnabled`. -/
def encryptionEnabled (lf : logFileMeta) : Bool := lf.dataKey.isSome

/-- `logFile.keyID`: the data key's id, `0` when there is none. -/
def keyID (lf : logFileMeta) : Nat :=
  match lf.dataKey with
  | none => 0
  | some dk => dk.KeyId

/-- `logFile.generateIV`: the 12 base-IV bytes followed by the
big-endian 4-byte record offset. -/
def generateIV (lf : logFileMeta) (offset : Nat) : List Nat :=
  lf.baseIV.take 12 ++ u32be offset

/-- The header recorded for an entry by `logFile.encodeEntry`
(`klen`/`vlen` are `uint32` casts of the slice lengths). -/
def entryHeader (e : Entry) : header :=
  ⟨e.Key.length % 2 ^ 32, e.Value.length % 2 ^ 32, e.ExpiresAt, e.meta, e.UserMeta⟩

/-- `logFile.encodeEntry`: appends `header ‖ ENC(key ‖ value) ‖ crc32`
and returns those bytes together with the returned encoded length
`len(headerEnc[:sz]) + len(e.Key) + len(e.Value) + len(crcBuf)`. -/
def encodeEntry (ks : Keystream) (lf : logFileMeta) (e : Entry) (offset : Nat) :
    List Nat × Nat :=
  let hb := headerEncode (entryHeader e)
  let kv := e.Key ++ e.Value
  let payload := match lf.dataKey with
    | some dk => xorKeystream (ks dk.Data (generateIV lf offset)) 0 kv
    | none => kv
  let body := hb ++ payload
  (body ++ u32be (crc32c body), hb.length + e.Key.length + e.Value.length + 4)

/-- `logFile.decryptKV`: XOR the bytes with the keystream for the IV
derived from the record offset (`y.XORBlockAllocate`). -/
def decryptKV (ks : Keystream) (dk : DataKey) (lf : logFileMeta) (offset : Nat)
    (buf : List Nat) : List Nat :=
  xorKeystream (ks dk.Data (generateIV lf offset)) 0 buf

/-- `logFile.decodeEntry`: decode a header from the front of `buf`,
decrypt the remainder if encryption is on, and slice out key and
value. -/
def decodeEntry (ks : Keystream) (lf : logFileMeta) (buf : List Nat) (offset : Nat) :
    Option Entry :=
  match headerDecode buf with
  | none => none
  | some (h, hlen) =>
    let kv0 := buf.drop hlen
    let kv := match lf.dataKey with
      | some dk => decryptKV ks dk lf offset kv0
      | none => kv0
    some ⟨kv.take h.klen, (kv.drop h.klen).take h.vlen, h.userMeta, h.expiresAt,
      h.meta, offset, 0, false⟩

/-- `safeRead.Entry`: sequentially parse one record from the front of
`bytes` (which starts at absolute file offset `recordOffset`), checking
the key-length bound and the trailing CRC against the on-disk bytes
(the hash-wrapping reader sums exactly the header and key/value bytes).
Returns the parsed entry and the number of bytes consumed.  Any
short-read or failed check is `none` (`io.EOF` / `errTruncate`). -/
def safeReadEntry (ks : Keystream) (lf : logFileMeta) (recordOffset : Nat)
    (bytes : List Nat) : Option (Entry × Nat) :=
  match headerDecode bytes with
  | none => none
  | some (h, hlen) =>
    if h.klen > 2 ^ 16 then none
    else
      let rest := bytes.drop hlen
      if rest.length < h.klen + h.vlen then none
      else
        let kvRaw := rest.take (h.klen + h.vlen)
        let kv := match lf.dataKey with
          | some dk => decryptKV ks dk lf recordOffset kvRaw
          | none => kvRaw
        let rest2 := rest.drop (h.klen + h.vlen)
        if rest2.length < 4 then none
        else
          if beBytesToNat (rest2.take 4) = crc32c (bytes.take (hlen + (h.klen + h.vlen))) then
            some (⟨kv.take h.klen, kv.drop h.klen, h.userMeta, h.expiresAt, h.meta,
              recordOffset, hlen, false⟩, hlen + (h.klen + h.vlen) + 4)
          else none

/-- The exact number of bytes `encodeEntry` appends for an entry:
encoded header length plus key, value and CRC lengths.  It does not
depend on the keystream, the data key or the offset. -/
def encLen (e : Entry) : Nat :=
  (headerEncode (entryHeader e)).length + e.Key.length + e.Value.length + 4

/-- The encoded payload (the on-disk form of `key ‖ value`). -/
def encPayload (ks : Keystream) (lf : logFileMeta) (e : Entry) (offset : Nat) :
    List Nat :=
  match lf.dataKey with
  | some dk => xorKeystream (ks dk.Data (generateIV lf offset)) 0 (e.Key ++ e.Value)
  | none => e.Key ++ e.Value

/-- Stable error identifiers of the subsystem (§6 of the spec). -/
inductive VErr where
  | sizeExceeded
  | truncateNeeded
  | deleteVlogFile
  | checksumMismatch
  | invalidRead
  | notFound
  | retry
deriving DecidableEq, Repr

/-- `valueLog.Read` after the raw record bytes `buf` have been fetched
(`readValueBytes`): when checksum verification is enabled, recompute
CRC-32C over `buf[:len-4]` and compare it with the trailing 4 bytes
before anything is decrypted; then decode the header, decrypt the
remainder if encryption is on, and slice out the value region. -/
def valueLogRead (verify : Bool) (ks : Keystream) (lf : logFileMeta)
    (buf : List Nat) (offset : Nat) : Except VErr (List Nat) :=
  if verify &&
      !(beBytesToNat (buf.drop (buf.length - 4)) == crc32c (buf.take (buf.length - 4)))
  then .error .checksumMismatch
  else
    match headerDecode buf with
    | none => .error .invalidRead
    | some (h, hlen) =>
      let kv0 := buf.drop hlen
      let kv := match lf.dataKey with
        | some dk => decryptKV ks dk lf offset kv0
        | none => kv0
      if kv.length < h.klen + h.vlen then .error .invalidRead
      else .ok ((kv.drop h.klen).take h.vlen)

/-- Modelled from the spec: `tx_manager.parse_ts(key)` — "last 8 bytes
of the key, big-endian" (§6); `0` when the key has no 8-byte timestamp
suffix (`y.ParseTs`). -/
def parseTs (key : List Nat) : Nat :=
  if key.length ≤ 8 then 0 else beBytesToNat (key.drop (key.length - 8))

/-- Go `strconv.ParseUint(s, 10, 64)`: parse an ASCII-decimal unsigned
integer; fails on an empty string, a non-digit byte, or overflow past
`2 ^ 64 - 1`. -/
def parseUintDecAux : List Nat → Nat → Option Nat
  | [], acc => some acc
  | b :: r, acc =>
    if 48 ≤ b ∧ b ≤ 57 then
      if acc * 10 + (b - 48) < 2 ^ 64 then parseUintDecAux r (acc * 10 + (b - 48))
      else none
    else none

/-- Parse the ASCII-decimal commit timestamp stored as the value of a
`FIN_TXN` record (`strconv.ParseUint(string(e.Value), 10, 64)`). -/
def parseUintDec (bs : List Nat) : Option Nat :=
  if bs.isEmpty then none else parseUintDecAux bs 0

/-- The loop body of `valueLog.iterate`, one iteration per record.
`fuel` bounds the number of records (`bytes.length` always suffices,
since every record occupies at least one byte); `bytes` is the unread
tail of the file; `ro` the absolute offset of the next record
(`read.recordOffset`); `lastCommit` and `validEnd` the transactional
framing state; `acc` the `(entry, value pointer)` pairs passed to the
iteration callback `fn` so far.  Returns the delivered pairs and
`validEndOffset`.  A parse failure (`io.EOF`, `io.ErrUnexpectedEOF`,
`errTruncate`) stops the loop, as does a transactional framing
violation. -/
def iterateAux (ks : Keystream) (lf : logFileMeta) :
    Nat → List Nat → Nat → Nat → Nat → List (Entry × ValuePointer) →
    List (Entry × ValuePointer) × Nat
  | 0, _, _, _, validEnd, acc => (acc, validEnd)
  | fuel + 1, bytes, ro, lastCommit, validEnd, acc =>
    match safeReadEntry ks lf ro bytes with
    | none => (acc, validEnd)
    | some (e, n) =>
      let vp : ValuePointer := ⟨lf.fid, n, ro⟩
      let ro2 := ro + n
      if e.meta &&& bitTxn ≠ 0 then
        let lc := if lastCommit = 0 then parseTs e.Key else lastCommit
        if lc ≠ parseTs e.Key then (acc, validEnd)
        else iterateAux ks lf fuel (bytes.drop n) ro2 lc validEnd (acc ++ [(e, vp)])
      else if e.meta &&& bitFinTxn ≠ 0 then
        match parseUintDec e.Value with
        | none => (acc, validEnd)
        | some ts =>
          if lastCommit ≠ ts then (acc, validEnd)
          else iterateAux ks lf fuel (bytes.drop n) ro2 0 ro2 (acc ++ [(e, vp)])
      else
        if lastCommit ≠ 0 then (acc, validEnd)
        else iterateAux ks lf fuel (bytes.drop n) ro2 lastCommit ro2 (acc ++ [(e, vp)])

/-- `valueLog.iterate` over the full content of a log file: an offset
of `0` is advanced past the 20-byte segment header, then records are
read sequentially; returns the list of `(entry, value pointer)` pairs
delivered to the callback and the final `validEndOffset`.  (The
read-only early-exit is not modelled: replay with truncation runs with
`ReadOnly = false`.) -/
def iterate (ks : Keystream) (lf : logFileMeta) (content : List Nat)
    (offset : Nat) : List (Entry × ValuePointer) × Nat :=
  let off := if offset = 0 then lfHeaderSize else offset
  iterateAux ks lf content.length (content.drop off) off 0 off []

/-- `valueLog.replayLog`: iterate the WAL file from `offset`; if the
valid end offset equals the file size nothing is done; otherwise, if
truncation is not permitted, fail with `TRUNCATE_NEEDED`; if at most
the 20-byte header remains valid, delete the file (`DELETE_VLOG_FILE`)
unless it is the max-fid file, which is re-bootstrapped to a fresh
20-byte header; otherwise truncate the file to the valid end offset.
Returns the pairs delivered to the replay callback and the resulting
file content. -/
def replayLog (ks : Keystream) (lf : logFileMeta) (truncate : Bool)
    (isMaxFid : Bool) (freshHeader : List Nat) (content : List Nat)
    (offset : Nat) :
    List (Entry × ValuePointer) × Except VErr (List Nat) :=
  let r := iterate ks lf content offset
  if r.2 = content.length then (r.1, .ok content)
  else if ¬ truncate then (r.1, .error .truncateNeeded)
  else if r.2 ≤ lfHeaderSize then
    if ¬ isMaxFid then (r.1, .error .deleteVlogFile)
    else (r.1, .ok freshHeader)
  else (r.1, .ok (content.take r.2))

/-- The 20-byte segment header `[keyID big-endian | baseIV]`
(`logFile.bootstrap`). -/
def mkLogHeader (lf : logFileMeta) : List Nat :=
  u64be (keyID lf) ++ lf.baseIV

/-- Encode a list of entries back-to-back starting at absolute file
offset `ro`, each record encrypted with the IV of its own offset —
the layout `write`/`encodeEntry` produces. -/
def encodeRecords (ks : Keystream) (lf : logFileMeta) (ro : Nat) :
    List Entry → List Nat
  | [] => []
  | e :: es =>
    (encodeEntry ks lf e ro).1 ++ encodeRecords ks lf (ro + encLen e) es

/-- The `(entry, value pointer)` pairs `iterate` delivers for the
records of `encodeRecords`: each parsed entry carries its absolute
offset and header length, and the pointer spans the whole record. -/
def parsedRecords (lf : logFileMeta) (ro : Nat) :
    List Entry → List (Entry × ValuePointer)
  | [] => []
  | e :: es =>
    (⟨e.Key, e.Value, e.UserMeta, e.ExpiresAt, e.meta, ro,
        (headerEncode (entryHeader e)).length, false⟩,
      ⟨lf.fid, encLen e, ro⟩) :: parsedRecords lf (ro + encLen e) es

/-- Total encoded length of a list of records. -/
def sumEncLen : List Entry → Nat
  | [] => 0
  | e :: es => encLen e + sumEncLen es

/-- Well-formedness of a `TXN`-marked record of the transaction with
commit timestamp `ts`: the `bitTxn` flag is set, the key parses to
`ts`, and the key/value sizes fit the on-disk bounds. -/
def txnWF (ts : Nat) (e : Entry) : Prop :=
  e.meta &&& bitTxn ≠ 0 ∧ parseTs e.Key = ts ∧
  e.Key.length ≤ 2 ^ 16 ∧ e.Value.length < 2 ^ 32

/-- Well-formedness of a `FIN_TXN` commit-marker record for commit
timestamp `ts`: the `bitFinTxn` flag is set (and `bitTxn` is not), and
its value parses as the ASCII-decimal `ts`. -/
def finRecWF (ts : Nat) (e : Entry) : Prop :=
  e.meta &&& bitTxn = 0 ∧ e.meta &&& bitFinTxn ≠ 0 ∧
  parseUintDec e.Value = some ts ∧
  e.Key.length ≤ 2 ^ 16 ∧ e.Value.length < 2 ^ 32

/-- One committed transaction as laid out in a WAL file: `body` records
carrying `bitTxn`, terminated by a `FIN_TXN` marker (spec §3,
invariant 6). -/
structure TxnGroup where
  ts : Nat
  body : List Entry
  fin : Entry

/-- The records of one committed transaction: body then marker. -/
def groupRecords (g : TxnGroup) : List Entry := g.body ++ [g.fin]

/-- A committed transaction group is well formed when its body is
nonempty and every record satisfies the framing conditions. -/
def groupWF (g : TxnGroup) : Prop :=
  g.body ≠ [] ∧ (∀ e ∈ g.body, txnWF g.ts e) ∧ finRecWF g.ts g.fin

/-- The flattened record sequence of a list of committed transactions. -/
def flatRecords : List TxnGroup → List Entry
  | [] => []
  | g :: gs => groupRecords g ++ flatRecords gs

/-- Boolean equality on `Except` results, for decidable statements. -/
def exceptBEq {e a : Type} [DecidableEq e] [DecidableEq a] :
    Except e a → Except e a → Bool
  | .error x, .error y => decide (x = y)
  | .ok x, .ok y => decide (x = y)
  | _, _ => false

instance {e a : Type} [DecidableEq e] [DecidableEq a] :
    DecidableEq (Except e a) := fun x y =>
  decidable_of_iff (exceptBEq x y = true) (by
    cases x <;> cases y <;> simp [exceptBEq])

/-- Concrete log-file metadata for the replay scenario: plaintext,
12-byte base IV. -/
def cexLf : logFileMeta := ⟨0, none, List.replicate 12 0⟩

/-- Concrete keystream (irrelevant: encryption is off). -/
def cexKs : Keystream := fun _ _ _ => 0

/-- A committed transaction's body record: `TXN` bit, timestamp 1. -/
def cexE1 : Entry := ⟨[1, 0, 0, 0, 0, 0, 0, 0, 1], [5], 0, 0, 64, 0, 0, false⟩

/-- The committed transaction's `FIN_TXN` marker, value ASCII "1". -/
def cexFin : Entry := ⟨[2], [49], 0, 0, 128, 0, 0, false⟩

/-- A torn trailing record: `TXN` bit, timestamp 2, no commit marker. -/
def cexTorn : Entry := ⟨[3, 0, 0, 0, 0, 0, 0, 0, 2], [6], 0, 0, 64, 0, 0, false⟩

/-- A WAL file holding one committed transaction followed by a torn
transaction that never got its `FIN_TXN` marker. -/
def cexContent : List Nat :=
  mkLogHeader cexLf ++ encodeRecords cexKs cexLf 20 [cexE1, cexFin, cexTorn]

set_option maxRecDepth 100000

instance (ts : Nat) (e : Entry) : Decidable (txnWF ts e) := by
  unfold txnWF
  infer_instance

instance (ts : Nat) (e : Entry) : Decidable (finRecWF ts e) := by
  unfold finRecWF
  infer_instance

instance (g : TxnGroup) : Decidable (groupWF g) := by
  unfold groupWF
  infer_instance

/-- The options fields the writer consults (`Options`). -/
structure Opts where
  valueLogFileSize : Nat
  valueLogMaxEntries : Nat
  valueThreshold : Nat
deriving DecidableEq, Repr

/-- Modelled from the spec: `db.shouldWriteValueToLSM` — "policy:
`len(value) < value_threshold`" (§4.3 step 3). -/
def shouldWriteValueToLSM (opt : Opts) (e : Entry) : Bool :=
  e.Value.length < opt.valueThreshold

/-- Go `meta &^ (bitTxn | bitFinTxn)` on a byte: clearing bits 6 and 7
is masking with `0x3F`. -/
def clearTxnBits (m : Nat) : Nat := m &&& 63

/-- One log file of a log set: codec metadata plus on-disk content. -/
structure FileM where
  meta : logFileMeta
  content : List Nat
deriving DecidableEq, Repr

/-- `logWrapper`: one set of log files (WAL or VLOG) with its current
(max) fid, writable offset and entries-written counter. -/
structure LWM where
  filesMap : List (Nat × FileM)
  maxFid : Nat
  writableOffset : Nat
  numEntriesWritten : Nat
deriving DecidableEq, Repr

/-- The two log sets of the `valueLog`. -/
structure VLState where
  wal : LWM
  vlog : LWM
deriving DecidableEq, Repr

/-- File types (`vlogFile` / `walFile`). -/
inductive fileTypeM where
  | vlogF
  | walF
deriving DecidableEq, Repr

/-- The supply of fresh (data key, base IV) pairs that
`logFile.bootstrap` draws from the key registry and the CSPRNG when a
file is created, indexed by file type and fid. -/
abbrev Seed := fileTypeM → Nat → Option DataKey × List Nat

/-- Look up a fid in a files map (`lw.filesMap[fid]`). -/
def findFile (m : List (Nat × FileM)) (fid : Nat) : Option FileM :=
  (m.find? (fun p => p.1 == fid)).map (fun p => p.2)

/-- Placeholder for a nil `*logFile` (never dereferenced on the
modelled paths). -/
def dummyFile : FileM := ⟨⟨0, none, []⟩, []⟩

/-- `valueLog.createLogFile` + `logFile.bootstrap`: create file `fid`
with a fresh 20-byte header, register it as the new writable file with
offset `lfHeaderSize` and a zero entry counter. -/
def createLogFile (seed : Seed) (ft : fileTypeM) (fid : Nat) (lw : LWM) : LWM :=
  let dk := (seed ft fid).1
  let iv := (seed ft fid).2
  let lfm : logFileMeta := ⟨fid, dk, iv⟩
  { filesMap := (fid, ⟨lfm, mkLogHeader lfm⟩) :: lw.filesMap
    maxFid := fid
    writableOffset := lfHeaderSize
    numEntriesWritten := 0 }

/-- `flushBufToFile`: append the buffer to the named file and advance
the writable offset; a no-op on an empty buffer. -/
def flushBufToFile (buf : List Nat) (fid : Nat) (lw : LWM) : LWM :=
  if buf.length = 0 then lw
  else
    { filesMap := lw.filesMap.map (fun p =>
        if p.1 == fid then (p.1, ⟨p.2.meta, p.2.content ++ buf⟩) else p)
      maxFid := lw.maxFid
      writableOffset := lw.writableOffset + buf.length
      numEntriesWritten := lw.numEntriesWritten }

/-- `logFile.doneWriting`, content effect only: truncate the named file
to the writable offset (sync/mmap effects have no content meaning). -/
def doneWriting (offset : Nat) (fid : Nat) (lw : LWM) : LWM :=
  { lw with filesMap := lw.filesMap.map (fun p =>
      if p.1 == fid then (p.1, ⟨p.2.meta, p.2.content.take offset⟩) else p) }

/-- `logWrapper.rotateFile`: finalize the current file and create the
next one at `maxFid + 1`; returns the new set and the new current fid. -/
def rotateFile (seed : Seed) (ft : fileTypeM) (curFid : Nat) (lw : LWM) :
    LWM × Nat :=
  let lw1 := doneWriting lw.writableOffset curFid lw
  let newid := lw.maxFid + 1
  (createLogFile seed ft newid lw1, newid)

/-- The writer's state across `valueLog.write`: log sets, the two
in-memory buffers, and the captured current files (`curWALF`,
`curVlogF`). -/
structure WCtx where
  st : VLState
  wbuf : List Nat
  vbuf : List Nat
  curWal : Nat
  curVlog : Nat
deriving DecidableEq, Repr

/-- One `request`: the entries of one transaction and its (input) head
pointer slot. -/
structure Request where
  Entries : List Entry
  head : ValuePointer
deriving DecidableEq, Repr

/-- What `write` stores into a request: per-entry value pointers, the
head pointer, and the entries as the loop leaves them. -/
structure ReqOut where
  Ptrs : List ValuePointer
  head : ValuePointer
  entriesOut : List Entry
deriving DecidableEq, Repr

/-- The per-request loop state of `write`. -/
structure ReqCtx where
  ctx : WCtx
  Ptrs : List ValuePointer
  head : ValuePointer
  walWritten : Nat
  vlogWritten : Nat
  entriesOut : List Entry
deriving DecidableEq, Repr

/-- The WAL part of `write`'s per-entry step (src/value.go
lines 1671-1693): encode the entry into the WAL buffer at the absolute
offset `wal.offset() + len(wbuf)`, produce the head pointer for it, and
flush the WAL buffer if it outgrew the maximum file size. -/
def walStep (opt : Opts) (ks : Keystream) (c : WCtx) (e : Entry) :
    WCtx × ValuePointer :=
  let wOffset := c.st.wal.writableOffset + c.wbuf.length
  let walLf := (findFile c.st.wal.filesMap c.curWal).getD dummyFile
  let enc := encodeEntry ks walLf.meta e wOffset
  let wbuf1 := c.wbuf ++ enc.1
  let head : ValuePointer := ⟨c.curWal, enc.2, wOffset⟩
  if wbuf1.length > opt.valueLogFileSize then
    let wal2 := flushBufToFile wbuf1 c.curWal c.st.wal
    ({ c with st := { c.st with wal := wal2 }, wbuf := [] }, head)
  else
    ({ c with wbuf := wbuf1 }, head)

/-- The VLOG part of `write`'s per-entry step (src/value.go
lines 1701-1734): create vlog file 0 if none exists, clear the
`TXN`/`FIN_TXN` bits, encode into the VLOG buffer at
`vlog.offset() + len(vbuf)`, restore the entry's meta, produce the
value pointer, and flush the VLOG buffer if it outgrew the maximum
file size. -/
def vlogStep (opt : Opts) (ks : Keystream) (seed : Seed) (c : WCtx)
    (e : Entry) : WCtx × ValuePointer × Entry :=
  let c1 :=
    if c.st.vlog.filesMap.isEmpty then
      let vl2 := createLogFile seed fileTypeM.vlogF 0 c.st.vlog
      { c with st := { c.st with vlog := vl2 }, curVlog := 0 }
    else c
  let m := e.meta
  let e2 : Entry := { e with meta := clearTxnBits e.meta }
  let pOffset := c1.st.vlog.writableOffset + c1.vbuf.length
  let vlogLf := (findFile c1.st.vlog.filesMap c1.curVlog).getD dummyFile
  let venc := encodeEntry ks vlogLf.meta e2 pOffset
  let e3 : Entry := { e2 with meta := m }
  let vbuf1 := c1.vbuf ++ venc.1
  let p : ValuePointer := ⟨c1.curVlog, venc.2, pOffset⟩
  if vbuf1.length > opt.valueLogFileSize then
    let vl3 := flushBufToFile vbuf1 c1.curVlog c1.st.vlog
    ({ c1 with st := { c1.st with vlog := vl3 }, vbuf := [] }, p, e3)
  else
    ({ c1 with vbuf := vbuf1 }, p, e3)

/-- The body of `write`'s inner per-entry loop (src/value.go
lines 1664-1735): skip-vlog entries get a zero pointer; otherwise the
entry goes through the WAL step (which overwrites the head pointer),
entries small enough for the LSM get a zero pointer, and the rest go
through the VLOG step. -/
def processEntry (opt : Opts) (ks : Keystream) (seed : Seed)
    (r : ReqCtx) (e : Entry) : ReqCtx :=
  if e.skipVlog then
    { r with Ptrs := r.Ptrs ++ [⟨0, 0, 0⟩], entriesOut := r.entriesOut ++ [e] }
  else
    let w := walStep opt ks r.ctx e
    if shouldWriteValueToLSM opt e then
      { ctx := w.1, Ptrs := r.Ptrs ++ [⟨0, 0, 0⟩], head := w.2,
        walWritten := r.walWritten + 1, vlogWritten := r.vlogWritten,
        entriesOut := r.entriesOut ++ [e] }
    else
      let v := vlogStep opt ks seed w.1 e
      { ctx := v.1, Ptrs := r.Ptrs ++ [v.2.1], head := w.2,
        walWritten := r.walWritten + 1, vlogWritten := r.vlogWritten + 1,
        entriesOut := r.entriesOut ++ [v.2.2] }

/-- `flushWrites`: flush both buffers to their current files. -/
def flushWrites (c : WCtx) : WCtx :=
  let st1 := { c.st with wal := flushBufToFile c.wbuf c.curWal c.st.wal }
  let st2 := { st1 with vlog := flushBufToFile c.vbuf c.curVlog st1.vlog }
  { c with st := st2, wbuf := [], vbuf := [] }

/-- `toDisk`: flush, then rotate whichever log set crossed the size or
entry-count threshold. -/
def toDisk (opt : Opts) (seed : Seed) (c : WCtx) : WCtx :=
  let c1 := flushWrites c
  let c2 :=
    if c1.st.vlog.writableOffset > opt.valueLogFileSize ∨
        c1.st.vlog.numEntriesWritten > opt.valueLogMaxEntries then
      let r := rotateFile seed fileTypeM.vlogF c1.curVlog c1.st.vlog
      { c1 with st := { c1.st with vlog := r.1 }, curVlog := r.2 }
    else c1
  if c2.st.wal.writableOffset > opt.valueLogFileSize ∨
      c2.st.wal.numEntriesWritten > opt.valueLogMaxEntries then
    let r := rotateFile seed fileTypeM.walF c2.curWal c2.st.wal
    { c2 with st := { c2.st with wal := r.1 }, curWal := r.2 }
  else c2

/-- One request of `write` (one transaction): reset the pointer slice,
process each entry, account the entry counters, then write to disk if
a threshold was crossed. -/
def processRequest (opt : Opts) (ks : Keystream) (seed : Seed)
    (c : WCtx) (req : Request) : WCtx × ReqOut :=
  let r := req.Entries.foldl (processEntry opt ks seed) ⟨c, [], req.head, 0, 0, []⟩
  let st1 : VLState :=
    { wal := { r.ctx.st.wal with
        numEntriesWritten := r.ctx.st.wal.numEntriesWritten + r.walWritten },
      vlog := { r.ctx.st.vlog with
        numEntriesWritten := r.ctx.st.vlog.numEntriesWritten + r.vlogWritten } }
  let c1 : WCtx := { r.ctx with st := st1 }
  let c2 :=
    if c1.st.wal.writableOffset + c1.wbuf.length > opt.valueLogFileSize ∨
        c1.st.wal.numEntriesWritten > opt.valueLogMaxEntries ∨
        c1.st.vlog.writableOffset + c1.vbuf.length > opt.valueLogFileSize ∨
        c1.st.vlog.numEntriesWritten > opt.valueLogMaxEntries then
      toDisk opt seed c1
    else c1
  (c2, ⟨r.Ptrs, r.head, r.entriesOut⟩)

/-- `estimateRequestSize`: worst-case encoded size of a request —
`maxHeaderSize + len(key) + len(value) + crc32.Size` per entry. -/
def estimateRequestSize (req : Request) : Nat :=
  req.Entries.foldl
    (fun size e => size + (maxHeaderSize + e.Key.length + e.Value.length + 4)) 0

/-- `valueLog.validateWrites`: simulate the WAL offset across the
batch, resetting it to zero when the estimated offset reaches the
rotation threshold, and fail with the size-exceeded error as soon as
one request would push the offset beyond the maximum vlog file size. -/
def validateWritesAux (opt : Opts) : Nat → List Request → Option VErr
  | _, [] => none
  | off, req :: rest =>
    let est := off + estimateRequestSize req
    if est > maxVlogFileSize then some .sizeExceeded
    else if est ≥ opt.valueLogFileSize then validateWritesAux opt 0 rest
    else validateWritesAux opt est rest

/-- `valueLog.validateWrites` entry point: starts from the current WAL
writable offset. -/
def validateWrites (opt : Opts) (st : VLState) (reqs : List Request) :
    Option VErr :=
  validateWritesAux opt st.wal.writableOffset reqs

/-- `valueLog.write`: validate the whole batch before any file I/O,
then process the requests and finish with a final `toDisk`. -/
def write (opt : Opts) (ks : Keystream) (seed : Seed) (st : VLState)
    (reqs : List Request) : Except VErr (VLState × List ReqOut) :=
  match validateWrites opt st reqs with
  | some er => .error er
  | none =>
    let r := reqs.foldl (fun acc req =>
      let pr := processRequest opt ks seed acc.1 req
      (pr.1, acc.2 ++ [pr.2]))
      ((⟨st, [], [], st.wal.maxFid, st.vlog.maxFid⟩ : WCtx), ([] : List ReqOut))
    let c := toDisk opt seed r.1
    .ok (c.st, r.2)

/-- The WAL pointer of the last non-skipped entry of a request, folded
from the starting absolute WAL offset `off` and initial head value
`h`. -/
def lastWalPtr (fid : Nat) : Nat → ValuePointer → List Entry → ValuePointer
  | _, h, [] => h
  | off, h, e :: es =>
    if e.skipVlog then lastWalPtr fid off h es
    else lastWalPtr fid (off + encLen e) ⟨fid, encLen e, off⟩ es

/-- Concrete writer fixtures for the head-pointer scenario. -/
def cexOpts : Opts := ⟨1000000, 1000, 100⟩

/-- Seed supplying plaintext files with a fixed IV. -/
def cexSeed : Seed := fun _ _ => (none, List.replicate 12 0)

/-- The writable WAL file 0 with its 20-byte header already written. -/
def cexWalFile : FileM := ⟨⟨0, none, List.replicate 12 0⟩, List.replicate 20 0⟩

/-- A value-log state with WAL file 0 at offset 20 and no vlog files. -/
def cexState : VLState := ⟨⟨[(0, cexWalFile)], 0, 20, 0⟩, ⟨[], 0, 0, 0⟩⟩

/-- Writer context capturing WAL file 0 as current. -/
def cexCtx : WCtx := ⟨cexState, [], [], 0, 0⟩

/-- A request with two non-skipped entries (both values small enough to
stay in the LSM). -/
def cexReq : Request :=
  ⟨[⟨[7], [1], 0, 0, 0, 0, 0, false⟩, ⟨[8], [2], 0, 0, 0, 0, 0, false⟩], ⟨0, 0, 0⟩⟩

/-- The simulated WAL offsets of pre-validation, as the spec describes
them: pair each request with the running offset before it, where the
offset after a request is reset to `0` when the estimated offset
reaches the rotation threshold and advances by the request's
worst-case size otherwise. -/
def simWalOffsets (opt : Opts) : Nat → List Request → List (Nat × Nat)
  | _, [] => []
  | off, req :: rest =>
    (off, estimateRequestSize req) ::
      simWalOffsets opt
        (if off + estimateRequestSize req ≥ opt.valueLogFileSize then 0
         else off + estimateRequestSize req) rest

/-- Some single request of the batch would push the simulated WAL
offset beyond `u32::MAX`. -/
def batchOverflows (opt : Opts) (off : Nat) (reqs : List Request) : Prop :=
  ∃ p ∈ simWalOffsets opt off reqs, p.1 + p.2 > maxVlogFileSize

/-- A request whose single entry would push the WAL offset past
`u32::MAX`. -/
def bigReq : Request :=
  ⟨[⟨[], List.replicate (2 ^ 32) 0, 0, 0, 0, 0, 0, false⟩], ⟨0, 0, 0⟩⟩

/-- All bytes the writer has directed at the current WAL file: the
file's on-disk content followed by the pending WAL buffer. -/
def walStream (c : WCtx) : List Nat :=
  ((findFile c.st.wal.filesMap c.curWal).getD dummyFile).content ++ c.wbuf

/-- All bytes the writer has directed at the current VLOG file. -/
def vlogStream (c : WCtx) : List Nat :=
  ((findFile c.st.vlog.filesMap c.curVlog).getD dummyFile).content ++ c.vbuf

/-- A writable VLOG file 0 with its 20-byte header written. -/
def cexVlogFile : FileM := ⟨⟨0, none, List.replicate 12 0⟩, List.replicate 20 0⟩

/-- A state with both a WAL file 0 and a VLOG file 0 at offset 20. -/
def cexState7 : VLState :=
  ⟨⟨[(0, cexWalFile)], 0, 20, 0⟩, ⟨[(0, cexVlogFile)], 0, 20, 0⟩⟩

/-- Per-request loop state over `cexState7` with empty buffers. -/
def cexR7 : ReqCtx := ⟨⟨cexState7, [], [], 0, 0⟩, [], ⟨0, 0, 0⟩, 0, 0, []⟩

/-- A transactional entry (meta has both `bitTxn` and `bitFinTxn`)
whose 100-byte value must go to the VLOG. -/
def cexE7 : Entry := ⟨[7], List.replicate 100 1, 0, 0, 192, 0, 0, false⟩

/-- Modelled from the spec: the LSM's response to `lsm.get(key)` —
"(value_bytes, meta, user_meta, expires_at, version)" (§6); `y.ValueStruct`
lives outside src/. -/
structure ValueStruct where
  Meta : Nat
  UserMeta : Nat
  ExpiresAt : Nat
  Version : Nat
  Value : List Nat
deriving DecidableEq, Repr

/-- Modelled from the spec: the move-key prefix — "the source uses
`!badger!move`" (§5); the constant lives outside src/.  These are the
ASCII bytes of that string. -/
def badgerMove : List Nat := [33, 98, 97, 100, 103, 101, 114, 33, 109, 111, 118, 101]

/-- Modelled from the spec: `isDeletedOrExpired` lives outside src/;
§4.6.1 rule 2 reads "`vs.meta & DELETE` set, or `vs.expires_at ≤ now`".
`now` is the current Unix time, passed as a parameter. -/
def isDeletedOrExpired (now meta expiresAt : Nat) : Bool :=
  (meta &&& bitDelete != 0) || decide (expiresAt ≤ now)

/-- `discardEntry` (src/value.go lines 1888-1915): classify a vlog
record as discardable given the LSM's response for its key.  The LSM
lookup `db.get` is outside src/ and modelled per the §6 contract as a
total function `get`. -/
def discardEntry (get : List Nat → ValueStruct) (now : Nat) (e : Entry)
    (vs : ValueStruct) : Bool :=
  if vs.Version ≠ parseTs e.Key then true
  else if isDeletedOrExpired now vs.Meta vs.ExpiresAt then true
  else if vs.Meta &&& bitValuePointer = 0 then true
  else if vs.Meta &&& bitFinTxn > 0 then true
  else if badgerMove.isPrefixOf e.Key then
    decide ((get (e.Key.drop badgerMove.length)).Version = 0)
  else false

/-- The GC-relevant state of the vlog log set: the files map, the
deferred-deletion list, the max (writable) fid, the active-iterator
counter, and — as the observable disk effect — the fids physically
deleted so far. -/
structure GCState where
  filesMap : List (Nat × FileM)
  filesToBeDeleted : List Nat
  maxFid : Nat
  numActiveIterators : Int
  deletedFids : List Nat
deriving DecidableEq, Repr

/-- Insertion into a sorted list (ascending). -/
def insertSorted (x : Nat) : List Nat → List Nat
  | [] => [x]
  | y :: ys => if x ≤ y then x :: y :: ys else y :: insertSorted x ys

/-- Ascending sort of a fid list. -/
def sortNat (l : List Nat) : List Nat := l.foldr insertSorted []

/-- `logWrapper.sortedFids` (src/value.go lines 1444-1459): the fids of
the files map that are not pending deletion, sorted ascending. -/
def sortedFids (g : GCState) : List Nat :=
  sortNat ((g.filesMap.map Prod.fst).filter
    (fun fid => !(g.filesToBeDeleted.contains fid)))

/-- A Go `map[uint32]int64` read: the stored value or zero. -/
def statLookup (stats : List (Nat × Int)) (fid : Nat) : Int :=
  ((stats.find? (fun p => p.1 == fid)).map Prod.snd).getD 0

/-- `valueLog.pickLog` (src/value.go lines 1848-1886): nil when at most
one fid; otherwise the candidate with the largest positive discard
stat (initial candidate fid `math.MaxUint32`), if any, followed by a
random pick favouring smaller fids.  The two `rand.Intn` draws are
modelled by the parameters `r1`, `r2` reduced into range by `%`
(`rand.Intn n` is some value in `[0, n)`).  The returned files are
identified by fid. -/
def pickLog (g : GCState) (stats : List (Nat × Int)) (r1 r2 : Nat) :
    List Nat :=
  let fids := sortedFids g
  if fids.length ≤ 1 then []
  else
    let candidate := fids.foldl (fun c fid =>
      if statLookup stats fid > c.2 then (fid, statLookup stats fid) else c)
      ((2 ^ 32 - 1 : Nat), (0 : Int))
    let files := if candidate.1 ≠ 2 ^ 32 - 1 then [candidate.1] else []
    let idx := r1 % fids.length
    let idx2 := if idx > 0 then r2 % (idx + 1) else idx
    files ++ [fids.getD idx2 0]

/-- A vlog file set with two files, fid 1 being the writable max-fid
file, no deferred deletions and no active iterators. -/
def g8 : GCState := ⟨[(0, cexVlogFile), (1, cexVlogFile)], [], 1, 0, []⟩

/-- `valueLog.rewrite`, deferred-deletion block (src/value.go
lines 671-693): after a rewrite, error if the fid left the map;
otherwise delete the file from the map and physically remove it at
once when no iterator is active, else append the fid to the
to-be-deleted list (the file stays in the map and on disk). -/
def removeFile (m : List (Nat × FileM)) (fid : Nat) : List (Nat × FileM) :=
  m.filter (fun p => !(p.1 == fid))

def rewriteFinish (fid : Nat) (g : GCState) : Option GCState :=
  if findFile g.filesMap fid = none then none
  else if g.numActiveIterators = 0 then
    some { g with
      filesMap := removeFile g.filesMap fid,
      deletedFids := g.deletedFids ++ [fid] }
  else
    some { g with filesToBeDeleted := g.filesToBeDeleted ++ [fid] }

/-- `valueLog.decrIteratorCount` (src/value.go lines 763-784):
decrement the counter; when it reaches zero, remove every file on the
to-be-deleted list from the map, clear the list, and physically delete
exactly those files. -/
def decrIteratorCount (g : GCState) : GCState :=
  let num := g.numActiveIterators - 1
  if num ≠ 0 then { g with numActiveIterators := num }
  else
    { filesMap := g.filesToBeDeleted.foldl removeFile g.filesMap,
      filesToBeDeleted := [],
      maxFid := g.maxFid,
      numActiveIterators := num,
      deletedFids := g.deletedFids ++ g.filesToBeDeleted }

/-- A state with file 1 both in the map and on the deferred-deletion
list, and exactly one active iterator about to depart. -/
def g9 : GCState := ⟨[(1, cexVlogFile)], [1], 1, 1, []⟩

theorem beBytesToNat_u32be (x : Nat) (h : x < 2 ^ 32) :
    beBytesToNat (u32be x) = x := by
  simp only [beBytesToNat, u32be, List.foldl]
  omega

theorem u32be_length (x : Nat) : (u32be x).length = 4 := rfl

theorem u64be_length (x : Nat) : (u64be x).length = 8 := rfl

theorem crcStep1_lt (c : Nat) (h : c < 2 ^ 32) : crcStep1 c < 2 ^ 32 := by
  unfold crcStep1
  split
  · exact Nat.xor_lt_two_pow (by omega) (by norm_num [crcPoly])
  · omega

theorem crcStepByte_lt (c b : Nat) (h : c < 2 ^ 32) :
    crcStepByte c b < 2 ^ 32 := by
  unfold crcStepByte
  have h0 : c ^^^ b % 256 < 2 ^ 32 :=
    Nat.xor_lt_two_pow h (by have := Nat.mod_lt b (show 0 < 256 by norm_num); omega)
  exact crcStep1_lt _ (crcStep1_lt _ (crcStep1_lt _ (crcStep1_lt _
    (crcStep1_lt _ (crcStep1_lt _ (crcStep1_lt _ (crcStep1_lt _ h0)))))))

theorem crc32c_lt (bs : List Nat) : crc32c bs < 2 ^ 32 := by
  unfold crc32c
  have : ∀ (l : List Nat) (c : Nat), c < 2 ^ 32 →
      l.foldl crcStepByte c < 2 ^ 32 := by
    intro l
    induction l with
    | nil => intro c hc; simpa using hc
    | cons x xs ih => intro c hc; exact ih _ (crcStepByte_lt c x hc)
  exact Nat.xor_lt_two_pow (this bs 0xFFFFFFFF (by norm_num)) (by norm_num)

theorem xorKeystream_length (f : Nat → Nat) (i : Nat) (bs : List Nat) :
    (xorKeystream f i bs).length = bs.length := by
  induction bs generalizing i with
  | nil => rfl
  | cons b bs ih => simp [xorKeystream, ih]

theorem xorKeystream_append (f : Nat → Nat) (i : Nat) (xs ys : List Nat) :
    xorKeystream f i (xs ++ ys) =
      xorKeystream f i xs ++ xorKeystream f (i + xs.length) ys := by
  induction xs generalizing i with
  | nil => simp [xorKeystream]
  | cons x xs ih =>
    simp only [List.cons_append, xorKeystream, List.append_eq]
    rw [ih (i + 1)]
    simp only [List.length_cons, List.cons.injEq, true_and]
    congr 2
    omega

theorem xorKeystream_xorKeystream (f : Nat → Nat) (i : Nat) (bs : List Nat) :
    xorKeystream f i (xorKeystream f i bs) = bs := by
  induction bs generalizing i with
  | nil => rfl
  | cons b bs ih =>
    simp only [xorKeystream, ih (i + 1), List.cons.injEq, and_true]
    rw [Nat.xor_assoc, Nat.xor_self, Nat.xor_zero]

theorem readUvarint_putUvarintAux (fuel x : Nat) (hx : x ≤ fuel) (rest : List Nat) :
    readUvarint (putUvarintAux fuel x ++ rest) =
      some (x, (putUvarintAux fuel x).length) := by
  induction fuel generalizing x with
  | zero =>
    have : x = 0 := by omega
    subst this
    rfl
  | succ fuel ih =>
    by_cases h : x < 128
    · simp [putUvarintAux, readUvarint, h]
    · have hdiv : x / 128 ≤ fuel := by omega
      simp only [putUvarintAux, if_neg h, List.cons_append, readUvarint,
        List.length_cons]
      rw [if_neg (by omega), ih (x / 128) hdiv]
      simp only [Option.map_some']
      have : x % 128 + 128 - 128 + 128 * (x / 128) = x := by omega
      rw [this]

theorem readUvarint_putUvarint (x : Nat) (rest : List Nat) :
    readUvarint (putUvarint x ++ rest) = some (x, (putUvarint x).length) :=
  readUvarint_putUvarintAux x x (Nat.le_refl x) rest

theorem putUvarint_length_pos (x : Nat) : 0 < (putUvarint x).length := by
  unfold putUvarint
  cases x with
  | zero => simp [putUvarintAux]
  | succ n =>
    simp only [putUvarintAux]
    split <;> simp

theorem headerDecode_headerEncode (h : header) (rest : List Nat) :
    headerDecode (headerEncode h ++ rest) =
      some (⟨h.klen % 2 ^ 32, h.vlen % 2 ^ 32, h.expiresAt, h.meta, h.userMeta⟩,
        (headerEncode h).length) := by
  simp only [headerEncode, List.cons_append, List.append_assoc, headerDecode,
    readUvarint_putUvarint, List.drop_left, List.length_cons, List.length_append,
    Option.some.injEq, Prod.mk.injEq]
  exact ⟨trivial, by omega⟩

theorem encodeEntry_fst_length (ks : Keystream) (lf : logFileMeta) (e : Entry)
    (offset : Nat) : (encodeEntry ks lf e offset).1.length = encLen e := by
  unfold encodeEntry encLen
  cases hdk : lf.dataKey with
  | none =>
    simp [List.length_append, u32be_length]
    omega
  | some dk =>
    simp [List.length_append, u32be_length, xorKeystream_length]
    omega

theorem encodeEntry_snd (ks : Keystream) (lf : logFileMeta) (e : Entry)
    (offset : Nat) : (encodeEntry ks lf e offset).2 = encLen e := rfl

theorem encPayload_length (ks : Keystream) (lf : logFileMeta) (e : Entry)
    (offset : Nat) :
    (encPayload ks lf e offset).length = e.Key.length + e.Value.length := by
  unfold encPayload
  cases lf.dataKey with
  | none => simp
  | some dk => simp [xorKeystream_length]

theorem encodeEntry_eq (ks : Keystream) (lf : logFileMeta) (e : Entry)
    (offset : Nat) :
    (encodeEntry ks lf e offset).1 =
      (headerEncode (entryHeader e) ++ encPayload ks lf e offset) ++
        u32be (crc32c (headerEncode (entryHeader e) ++ encPayload ks lf e offset)) := by
  unfold encodeEntry encPayload
  cases lf.dataKey <;> rfl

theorem decodeEntry_encodeEntry (ks : Keystream) (lf : logFileMeta) (e : Entry)
    (offset : Nat) (hk : e.Key.length < 2 ^ 32) (hv : e.Value.length < 2 ^ 32) :
    decodeEntry ks lf (encodeEntry ks lf e offset).1 offset =
      some ⟨e.Key, e.Value, e.UserMeta, e.ExpiresAt, e.meta, offset, 0, false⟩ := by
  rw [encodeEntry_eq]
  unfold decodeEntry
  rw [List.append_assoc, headerDecode_headerEncode]
  unfold encPayload
  cases lf.dataKey with
  | none =>
    simp only [entryHeader, Nat.mod_eq_of_lt hk, Nat.mod_eq_of_lt hv,
      List.drop_left, Option.some.injEq, Entry.mk.injEq]
    refine ⟨?_, ?_, trivial, trivial, trivial, trivial, trivial, trivial⟩
    · rw [List.append_assoc, List.take_left]
    · rw [List.append_assoc, List.drop_left, List.take_left]
  | some dk =>
    simp only [entryHeader, Nat.mod_eq_of_lt hk, Nat.mod_eq_of_lt hv,
      List.drop_left, decryptKV, Option.some.injEq, Entry.mk.injEq]
    rw [xorKeystream_append, xorKeystream_xorKeystream]
    refine ⟨?_, ?_, trivial, trivial, trivial, trivial, trivial, trivial⟩
    · rw [List.append_assoc, List.take_left]
    · rw [List.append_assoc, List.drop_left, List.take_left]

theorem safeReadEntry_encodeEntry (ks : Keystream) (lf : logFileMeta) (e : Entry)
    (off : Nat) (rest : List Nat)
    (hk : e.Key.length ≤ 2 ^ 16) (hv : e.Value.length < 2 ^ 32) :
    safeReadEntry ks lf off ((encodeEntry ks lf e off).1 ++ rest) =
      some (⟨e.Key, e.Value, e.UserMeta, e.ExpiresAt, e.meta, off,
        (headerEncode (entryHeader e)).length, false⟩, encLen e) := by
  have hk32 : e.Key.length < 2 ^ 32 := by
    have : (2 : Nat) ^ 16 < 2 ^ 32 := by norm_num
    omega
  have hassoc : (encodeEntry ks lf e off).1 ++ rest =
      headerEncode (entryHeader e) ++
        (encPayload ks lf e off ++
          (u32be (crc32c (headerEncode (entryHeader e) ++ encPayload ks lf e off)) ++ rest)) := by
    rw [encodeEntry_eq]
    simp [List.append_assoc]
  have hPlen : (encPayload ks lf e off).length = e.Key.length + e.Value.length :=
    encPayload_length ks lf e off
  rw [hassoc]
  unfold safeReadEntry
  rw [headerDecode_headerEncode]
  simp only [entryHeader, Nat.mod_eq_of_lt hk32, Nat.mod_eq_of_lt hv]
  rw [if_neg (by omega)]
  rw [List.drop_left]
  rw [if_neg (by
    simp only [List.length_append, u32be_length]
    rw [show (encPayload ks lf e off).length = e.Key.length + e.Value.length from hPlen]
    omega)]
  rw [List.take_left' hPlen, List.drop_left' hPlen]
  rw [if_neg (by simp [List.length_append, u32be_length])]
  rw [List.take_left' (u32be_length _)]
  have hcrcTake : List.take ((headerEncode (entryHeader e)).length +
        (e.Key.length + e.Value.length))
      (headerEncode (entryHeader e) ++
        (encPayload ks lf e off ++
          (u32be (crc32c (headerEncode (entryHeader e) ++ encPayload ks lf e off)) ++ rest))) =
      headerEncode (entryHeader e) ++ encPayload ks lf e off := by
    rw [← List.append_assoc]
    refine List.take_left' ?_
    simp [List.length_append, hPlen]
  simp only [entryHeader, Nat.mod_eq_of_lt hk32, Nat.mod_eq_of_lt hv] at hcrcTake
  rw [hcrcTake]
  rw [beBytesToNat_u32be _ (crc32c_lt _)]
  rw [if_pos rfl]
  have hkv : (match lf.dataKey with
      | some dk => decryptKV ks dk lf off (encPayload ks lf e off)
      | none => encPayload ks lf e off) = e.Key ++ e.Value := by
    unfold encPayload decryptKV
    cases lf.dataKey with
    | none => rfl
    | some dk => exact xorKeystream_xorKeystream _ 0 (e.Key ++ e.Value)
  cases hdk : lf.dataKey with
  | none =>
    have hkv2 := hkv
    rw [hdk] at hkv2
    simp only at hkv2
    simp only [encLen, entryHeader, Nat.mod_eq_of_lt hk32, Nat.mod_eq_of_lt hv,
      Option.some.injEq, Prod.mk.injEq, Entry.mk.injEq]
    refine ⟨⟨?_, ?_, trivial, trivial, trivial, trivial, trivial, trivial⟩, by omega⟩
    · rw [hkv2, List.take_left]
    · rw [hkv2, List.drop_left]
  | some dk =>
    have hkv2 := hkv
    rw [hdk] at hkv2
    simp only at hkv2
    simp only [encLen, entryHeader, Nat.mod_eq_of_lt hk32, Nat.mod_eq_of_lt hv,
      Option.some.injEq, Prod.mk.injEq, Entry.mk.injEq]
    refine ⟨⟨?_, ?_, trivial, trivial, trivial, trivial, trivial, trivial⟩, by omega⟩
    · rw [hkv2, List.take_left]
    · rw [hkv2, List.drop_left]

/-- C1: for every entry whose key length is at most `2^16` and value
length at most `2^32 - 1`, and for every file offset, decoding the
bytes produced by `encodeEntry` at that offset — with `decodeEntry`, or
with `safeReadEntry` over the same byte stream — yields an entry equal
to the original in key, value, meta, user-meta and expires-at.  The log
file (so whether encryption is off, or on with a given data key and
base IV) and the AES-CTR keystream are universally quantified, so the
statement covers both the plaintext and the encrypted case with the
same `(data_key, base_iv, offset)`. -/
theorem C1_encode_decode_roundtrip (ks : Keystream) (lf : logFileMeta) (e : Entry)
    (off : Nat) (rest : List Nat)
    (hk : e.Key.length ≤ 2 ^ 16) (hv : e.Value.length ≤ 2 ^ 32 - 1) :
    (∃ d, decodeEntry ks lf (encodeEntry ks lf e off).1 off = some d ∧
       d.Key = e.Key ∧ d.Value = e.Value ∧ d.meta = e.meta ∧
       d.UserMeta = e.UserMeta ∧ d.ExpiresAt = e.ExpiresAt) ∧
    (∃ d n, safeReadEntry ks lf off ((encodeEntry ks lf e off).1 ++ rest) =
        some (d, n) ∧
       d.Key = e.Key ∧ d.Value = e.Value ∧ d.meta = e.meta ∧
       d.UserMeta = e.UserMeta ∧ d.ExpiresAt = e.ExpiresAt) := by
  have hk32 : e.Key.length < 2 ^ 32 := by
    have : (2 : Nat) ^ 16 < 2 ^ 32 := by norm_num
    omega
  have hv32 : e.Value.length < 2 ^ 32 := by
    have : (1 : Nat) ≤ 2 ^ 32 := by norm_num
    omega
  constructor
  · exact ⟨_, decodeEntry_encodeEntry ks lf e off hk32 hv32, rfl, rfl, rfl, rfl, rfl⟩
  · exact ⟨_, _, safeReadEntry_encodeEntry ks lf e off rest hk hv32, rfl, rfl, rfl, rfl, rfl⟩

theorem C1_witness :
    (∃ d, decodeEntry (fun kb iv i => (kb.length + iv.length + i) % 256)
        ⟨3, some ⟨9, [1, 2, 3]⟩, [0, 1, 2, 3, 4, 5, 6, 7, 8, 9, 10, 11]⟩
        (encodeEntry (fun kb iv i => (kb.length + iv.length + i) % 256)
          ⟨3, some ⟨9, [1, 2, 3]⟩, [0, 1, 2, 3, 4, 5, 6, 7, 8, 9, 10, 11]⟩
          ⟨[1, 2], [3], 7, 300, 66, 0, 0, false⟩ 20).1 20 = some d ∧
       d.Key = [1, 2] ∧ d.Value = [3] ∧ d.meta = 66 ∧
       d.UserMeta = 7 ∧ d.ExpiresAt = 300) ∧
    (∃ d n, safeReadEntry (fun kb iv i => (kb.length + iv.length + i) % 256)
        ⟨3, some ⟨9, [1, 2, 3]⟩, [0, 1, 2, 3, 4, 5, 6, 7, 8, 9, 10, 11]⟩ 20
        ((encodeEntry (fun kb iv i => (kb.length + iv.length + i) % 256)
          ⟨3, some ⟨9, [1, 2, 3]⟩, [0, 1, 2, 3, 4, 5, 6, 7, 8, 9, 10, 11]⟩
          ⟨[1, 2], [3], 7, 300, 66, 0, 0, false⟩ 20).1 ++ [9, 9]) = some (d, n) ∧
       d.Key = [1, 2] ∧ d.Value = [3] ∧ d.meta = 66 ∧
       d.UserMeta = 7 ∧ d.ExpiresAt = 300) :=
  C1_encode_decode_roundtrip (fun kb iv i => (kb.length + iv.length + i) % 256)
    ⟨3, some ⟨9, [1, 2, 3]⟩, [0, 1, 2, 3, 4, 5, 6, 7, 8, 9, 10, 11]⟩
    ⟨[1, 2], [3], 7, 300, 66, 0, 0, false⟩ 20 [9, 9] (by decide) (by decide)

theorem valueLogRead_encodeEntry (ks : Keystream) (lf : logFileMeta) (e : Entry)
    (off : Nat) (hk : e.Key.length < 2 ^ 32) (hv : e.Value.length < 2 ^ 32) :
    valueLogRead true ks lf (encodeEntry ks lf e off).1 off = Except.ok e.Value := by
  have hPlen : (encPayload ks lf e off).length = e.Key.length + e.Value.length :=
    encPayload_length ks lf e off
  rw [encodeEntry_eq]
  unfold valueLogRead
  have hlen4 : ((headerEncode (entryHeader e) ++ encPayload ks lf e off) ++
      u32be (crc32c (headerEncode (entryHeader e) ++ encPayload ks lf e off))).length - 4 =
      (headerEncode (entryHeader e) ++ encPayload ks lf e off).length := by
    simp only [List.length_append, u32be_length]
    omega
  rw [hlen4, List.drop_left, List.take_left]
  rw [beBytesToNat_u32be _ (crc32c_lt _)]
  simp only [beq_self_eq_true, Bool.not_true, Bool.and_false, Bool.false_eq_true,
    if_false]
  rw [List.append_assoc, headerDecode_headerEncode]
  unfold encPayload
  cases lf.dataKey with
  | none =>
    simp only [entryHeader, Nat.mod_eq_of_lt hk, Nat.mod_eq_of_lt hv, List.drop_left]
    rw [if_neg (by
      simp only [List.length_append, u32be_length]
      omega)]
    rw [List.append_assoc, List.drop_left, List.take_left]
  | some dk =>
    simp only [entryHeader, Nat.mod_eq_of_lt hk, Nat.mod_eq_of_lt hv, List.drop_left,
      decryptKV]
    rw [xorKeystream_append, xorKeystream_xorKeystream]
    rw [if_neg (by
      simp only [List.length_append, xorKeystream_length, u32be_length]
      omega)]
    rw [List.append_assoc, List.drop_left, List.take_left]

/-- C3: the CRC-32C stored after a record is computed over the bytes as
written to disk — the header bytes followed by the (possibly encrypted)
key and value — never over the plaintext: with encryption enabled the
stored trailing 4 bytes are the CRC of `header ‖ ciphertext` where the
ciphertext is the keystream-XORed `key ‖ value`.  On read, `valueLogRead`
recomputes the CRC over the on-disk bytes `buf[:len-4]` and compares it
with the trailing 4 bytes before any decryption takes place: any buffer
failing that comparison is rejected with a checksum error outright, and
the exact on-disk record passes the comparison and yields the value. -/
theorem C3_crc_over_disk_bytes (ks : Keystream) (lf : logFileMeta) (e : Entry)
    (off : Nat) (dk : DataKey) (henc : lf.dataKey = some dk)
    (hk : e.Key.length < 2 ^ 32) (hv : e.Value.length < 2 ^ 32) :
    (encodeEntry ks lf e off).1 =
      (headerEncode (entryHeader e) ++
        xorKeystream (ks dk.Data (generateIV lf off)) 0 (e.Key ++ e.Value)) ++
      u32be (crc32c (headerEncode (entryHeader e) ++
        xorKeystream (ks dk.Data (generateIV lf off)) 0 (e.Key ++ e.Value))) ∧
    (∀ buf o2, beBytesToNat (buf.drop (buf.length - 4)) ≠
        crc32c (buf.take (buf.length - 4)) →
      valueLogRead true ks lf buf o2 = Except.error VErr.checksumMismatch) ∧
    valueLogRead true ks lf (encodeEntry ks lf e off).1 off = Except.ok e.Value := by
  refine ⟨?_, ?_, valueLogRead_encodeEntry ks lf e off hk hv⟩
  · rw [encodeEntry_eq]
    unfold encPayload
    rw [henc]
  · intro buf o2 hne
    unfold valueLogRead
    rw [if_pos]
    simp only [Bool.and_eq_true, true_and, Bool.not_eq_true', beq_eq_false_iff_ne]
    exact hne

theorem C3_witness :
    (encodeEntry (fun kb iv i => (kb.headI + iv.headI + i) % 256)
        ⟨5, some ⟨2, [7]⟩, [1, 1, 1, 1, 1, 1, 1, 1, 1, 1, 1, 1]⟩
        ⟨[4, 4], [8], 0, 0, 2, 0, 0, false⟩ 20).1 =
      (headerEncode (entryHeader ⟨[4, 4], [8], 0, 0, 2, 0, 0, false⟩) ++
        xorKeystream ((fun kb iv i => (kb.headI + iv.headI + i) % 256) [7]
          (generateIV ⟨5, some ⟨2, [7]⟩, [1, 1, 1, 1, 1, 1, 1, 1, 1, 1, 1, 1]⟩ 20)) 0
          ([4, 4] ++ [8])) ++
      u32be (crc32c (headerEncode (entryHeader ⟨[4, 4], [8], 0, 0, 2, 0, 0, false⟩) ++
        xorKeystream ((fun kb iv i => (kb.headI + iv.headI + i) % 256) [7]
          (generateIV ⟨5, some ⟨2, [7]⟩, [1, 1, 1, 1, 1, 1, 1, 1, 1, 1, 1, 1]⟩ 20)) 0
          ([4, 4] ++ [8]))) ∧
    (∀ buf o2, beBytesToNat (buf.drop (buf.length - 4)) ≠
        crc32c (buf.take (buf.length - 4)) →
      valueLogRead true (fun kb iv i => (kb.headI + iv.headI + i) % 256)
        ⟨5, some ⟨2, [7]⟩, [1, 1, 1, 1, 1, 1, 1, 1, 1, 1, 1, 1]⟩ buf o2 =
        Except.error VErr.checksumMismatch) ∧
    valueLogRead true (fun kb iv i => (kb.headI + iv.headI + i) % 256)
      ⟨5, some ⟨2, [7]⟩, [1, 1, 1, 1, 1, 1, 1, 1, 1, 1, 1, 1]⟩
      (encodeEntry (fun kb iv i => (kb.headI + iv.headI + i) % 256)
        ⟨5, some ⟨2, [7]⟩, [1, 1, 1, 1, 1, 1, 1, 1, 1, 1, 1, 1]⟩
        ⟨[4, 4], [8], 0, 0, 2, 0, 0, false⟩ 20).1 20 = Except.ok [8] :=
  C3_crc_over_disk_bytes (fun kb iv i => (kb.headI + iv.headI + i) % 256)
    ⟨5, some ⟨2, [7]⟩, [1, 1, 1, 1, 1, 1, 1, 1, 1, 1, 1, 1]⟩
    ⟨[4, 4], [8], 0, 0, 2, 0, 0, false⟩ 20 ⟨2, [7]⟩ rfl (by decide) (by decide)

theorem safeReadEntry_nil (ks : Keystream) (lf : logFileMeta) (ro : Nat) :
    safeReadEntry ks lf ro [] = none := rfl

theorem safeReadEntry_some_bounds (ks : Keystream) (lf : logFileMeta) (ro : Nat)
    (bytes : List Nat) (p : Entry × Nat)
    (h : safeReadEntry ks lf ro bytes = some p) :
    1 ≤ p.2 ∧ 1 ≤ bytes.length := by
  unfold safeReadEntry at h
  cases hhd : headerDecode bytes with
  | none => rw [hhd] at h; exact absurd h (by simp)
  | some q =>
    rw [hhd] at h
    have hb : 1 ≤ bytes.length := by
      cases bytes with
      | nil => exact absurd hhd (by simp [headerDecode])
      | cons b bs => simp
    refine ⟨?_, hb⟩
    obtain ⟨hd, hlen⟩ := q
    obtain ⟨pe, pn⟩ := p
    simp only at h
    split_ifs at h
    simp only [Option.some.injEq, Prod.mk.injEq] at h
    show 1 ≤ pn
    omega

theorem iterateAux_fuelInv (ks : Keystream) (lf : logFileMeta) :
    ∀ f1 f2 bytes ro lc ve acc, bytes.length ≤ f1 → bytes.length ≤ f2 →
      iterateAux ks lf f1 bytes ro lc ve acc = iterateAux ks lf f2 bytes ro lc ve acc := by
  intro f1
  induction f1 with
  | zero =>
    intro f2 bytes ro lc ve acc h1 h2
    have hnil : bytes = [] := List.length_eq_zero.mp (by omega)
    subst hnil
    cases f2 with
    | zero => rfl
    | succ f2 => simp [iterateAux, safeReadEntry_nil]
  | succ f1 ih =>
    intro f2 bytes ro lc ve acc h1 h2
    cases f2 with
    | zero =>
      have hnil : bytes = [] := List.length_eq_zero.mp (by omega)
      subst hnil
      simp [iterateAux, safeReadEntry_nil]
    | succ f2 =>
      simp only [iterateAux]
      cases hSR : safeReadEntry ks lf ro bytes with
      | none => rfl
      | some p =>
        obtain ⟨e, n⟩ := p
        have hbnd := safeReadEntry_some_bounds ks lf ro bytes (e, n) hSR
        have hdrop : (bytes.drop n).length ≤ f1 := by
          simp only [List.length_drop]
          omega
        have hdrop2 : (bytes.drop n).length ≤ f2 := by
          simp only [List.length_drop]
          omega
        simp only
        by_cases h1t : e.meta &&& bitTxn ≠ 0
        · rw [if_pos h1t, if_pos h1t]
          by_cases h2t : (if lc = 0 then parseTs e.Key else lc) ≠ parseTs e.Key
          · rw [if_pos h2t, if_pos h2t]
          · rw [if_neg h2t, if_neg h2t]
            exact ih f2 _ _ _ _ _ hdrop hdrop2
        · rw [if_neg h1t, if_neg h1t]
          by_cases h3t : e.meta &&& bitFinTxn ≠ 0
          · rw [if_pos h3t, if_pos h3t]
            cases hpu : parseUintDec e.Value with
            | none => rfl
            | some ts =>
              by_cases h4t : lc ≠ ts
              · simp only [if_pos h4t]
              · simp only [if_neg h4t]
                exact ih f2 _ _ _ _ _ hdrop hdrop2
          · rw [if_neg h3t, if_neg h3t]
            by_cases h5t : lc ≠ 0
            · rw [if_pos h5t, if_pos h5t]
            · rw [if_neg h5t, if_neg h5t]
              exact ih f2 _ _ _ _ _ hdrop hdrop2

theorem encLen_pos (e : Entry) : 0 < encLen e := by
  unfold encLen
  omega

theorem encodeRecords_length (ks : Keystream) (lf : logFileMeta) (ro : Nat)
    (es : List Entry) : (encodeRecords ks lf ro es).length = sumEncLen es := by
  induction es generalizing ro with
  | nil => rfl
  | cons e es ih =>
    simp only [encodeRecords, sumEncLen, List.length_append,
      encodeEntry_fst_length, ih]

theorem encodeRecords_append (ks : Keystream) (lf : logFileMeta) (ro : Nat)
    (xs ys : List Entry) :
    encodeRecords ks lf ro (xs ++ ys) =
      encodeRecords ks lf ro xs ++ encodeRecords ks lf (ro + sumEncLen xs) ys := by
  induction xs generalizing ro with
  | nil => simp [encodeRecords, sumEncLen]
  | cons e es ih =>
    simp only [List.cons_append, encodeRecords, sumEncLen, List.append_eq, ih,
      List.append_assoc]
    have h2 : ro + encLen e + sumEncLen es = ro + (encLen e + sumEncLen es) := by omega
    rw [h2]

theorem parsedRecords_append (lf : logFileMeta) (ro : Nat) (xs ys : List Entry) :
    parsedRecords lf ro (xs ++ ys) =
      parsedRecords lf ro xs ++ parsedRecords lf (ro + sumEncLen xs) ys := by
  induction xs generalizing ro with
  | nil => simp [parsedRecords, sumEncLen]
  | cons e es ih =>
    simp only [List.cons_append, parsedRecords, sumEncLen, List.append_eq, ih]
    have h2 : ro + encLen e + sumEncLen es = ro + (encLen e + sumEncLen es) := by omega
    rw [h2]

theorem iterateAux_txnBody (ks : Keystream) (lf : logFileMeta) :
    ∀ (body : List Entry) (ts : Nat), (∀ e ∈ body, txnWF ts e) →
    ∀ fuel rest ro lc ve acc, (lc = 0 ∨ lc = ts) →
      (encodeRecords ks lf ro body ++ rest).length ≤ fuel →
      iterateAux ks lf fuel (encodeRecords ks lf ro body ++ rest) ro lc ve acc =
        iterateAux ks lf rest.length rest (ro + sumEncLen body)
          (if body.isEmpty then lc else ts) ve (acc ++ parsedRecords lf ro body) := by
  intro body
  induction body with
  | nil =>
    intro ts hwf fuel rest ro lc ve acc hlc hfuel
    simp only [encodeRecords, List.nil_append, sumEncLen, Nat.add_zero,
      parsedRecords, List.append_nil, List.isEmpty_nil, if_true]
    exact iterateAux_fuelInv ks lf fuel rest.length rest ro lc ve acc
      (by simpa [encodeRecords] using hfuel) (Nat.le_refl _)
  | cons e es ih =>
    intro ts hwf fuel rest ro lc ve acc hlc hfuel
    obtain ⟨hbit, hts, hkl, hvl⟩ := hwf e (List.mem_cons_self e es)
    have hbytes : encodeRecords ks lf ro (e :: es) ++ rest =
        (encodeEntry ks lf e ro).1 ++ (encodeRecords ks lf (ro + encLen e) es ++ rest) := by
      simp [encodeRecords, List.append_assoc]
    rw [hbytes] at hfuel ⊢
    have hel := encLen_pos e
    have hlen : ((encodeEntry ks lf e ro).1 ++
        (encodeRecords ks lf (ro + encLen e) es ++ rest)).length =
        encLen e + (encodeRecords ks lf (ro + encLen e) es ++ rest).length := by
      simp [List.length_append, encodeEntry_fst_length]
    cases fuel with
    | zero => omega
    | succ fuel =>
      simp only [iterateAux]
      rw [safeReadEntry_encodeEntry ks lf e ro _ hkl hvl]
      have hlc2 : (if lc = 0 then parseTs e.Key else lc) = ts := by
        rcases hlc with h | h
        · simp [h, hts]
        · subst h
          split
          · exact hts
          · rfl
      simp only
      rw [if_pos (by simpa using hbit)]
      rw [hlc2, hts, if_neg (by simp)]
      rw [List.drop_left' (encodeEntry_fst_length ks lf e ro)]
      have hfuel2 : (encodeRecords ks lf (ro + encLen e) es ++ rest).length ≤ fuel := by
        omega
      rw [ih ts (fun x hx => hwf x (List.mem_cons_of_mem e hx)) fuel rest
        (ro + encLen e) ts ve _ (Or.inr rfl) hfuel2]
      have h3 : ro + encLen e + sumEncLen es = ro + (encLen e + sumEncLen es) := by
        omega
      simp only [sumEncLen, parsedRecords, List.isEmpty_cons, ite_self,
        Bool.false_eq_true, if_false, List.append_assoc, List.singleton_append, h3]

theorem sumEncLen_append (xs ys : List Entry) :
    sumEncLen (xs ++ ys) = sumEncLen xs + sumEncLen ys := by
  induction xs with
  | nil => simp [sumEncLen]
  | cons e es ih => simp [sumEncLen, ih]; omega

theorem iterateAux_finRec (ks : Keystream) (lf : logFileMeta) (ts : Nat)
    (fin : Entry) (hf : finRecWF ts fin) :
    ∀ fuel rest ro ve acc, ((encodeEntry ks lf fin ro).1 ++ rest).length ≤ fuel →
      iterateAux ks lf fuel ((encodeEntry ks lf fin ro).1 ++ rest) ro ts ve acc =
        iterateAux ks lf rest.length rest (ro + encLen fin) 0 (ro + encLen fin)
          (acc ++ [(⟨fin.Key, fin.Value, fin.UserMeta, fin.ExpiresAt, fin.meta, ro,
            (headerEncode (entryHeader fin)).length, false⟩,
            ⟨lf.fid, encLen fin, ro⟩)]) := by
  obtain ⟨hbt, hbf, hpu, hkl, hvl⟩ := hf
  intro fuel rest ro ve acc hfuel
  have hel := encLen_pos fin
  have hlen : ((encodeEntry ks lf fin ro).1 ++ rest).length =
      encLen fin + rest.length := by
    simp [List.length_append, encodeEntry_fst_length]
  cases fuel with
  | zero => omega
  | succ fuel =>
    simp only [iterateAux]
    rw [safeReadEntry_encodeEntry ks lf fin ro _ hkl hvl]
    simp only
    rw [if_neg (by simp [hbt])]
    rw [if_pos (by simpa using hbf)]
    simp only [hpu]
    rw [if_neg (by simp)]
    rw [List.drop_left' (encodeEntry_fst_length ks lf fin ro)]
    exact iterateAux_fuelInv ks lf fuel rest.length rest (ro + encLen fin) 0
      (ro + encLen fin) _ (by omega) (Nat.le_refl _)

theorem iterateAux_group (ks : Keystream) (lf : logFileMeta) (g : TxnGroup)
    (hg : groupWF g) :
    ∀ fuel rest ro ve acc,
      (encodeRecords ks lf ro (groupRecords g) ++ rest).length ≤ fuel →
      iterateAux ks lf fuel (encodeRecords ks lf ro (groupRecords g) ++ rest)
          ro 0 ve acc =
        iterateAux ks lf rest.length rest (ro + sumEncLen (groupRecords g)) 0
          (ro + sumEncLen (groupRecords g))
          (acc ++ parsedRecords lf ro (groupRecords g)) := by
  obtain ⟨hne, hbody, hfin⟩ := hg
  intro fuel rest ro ve acc hfuel
  have hsplit : encodeRecords ks lf ro (groupRecords g) ++ rest =
      encodeRecords ks lf ro g.body ++
        (encodeRecords ks lf (ro + sumEncLen g.body) [g.fin] ++ rest) := by
    simp only [groupRecords, encodeRecords_append, List.append_assoc]
  rw [hsplit] at hfuel ⊢
  rw [iterateAux_txnBody ks lf g.body g.ts hbody fuel _ ro 0 ve acc (Or.inl rfl) hfuel]
  rw [if_neg (by simp [List.isEmpty_iff, hne])]
  have hone : encodeRecords ks lf (ro + sumEncLen g.body) [g.fin] ++ rest =
      (encodeEntry ks lf g.fin (ro + sumEncLen g.body)).1 ++ rest := by
    simp [encodeRecords]
  rw [hone]
  rw [iterateAux_finRec ks lf g.ts g.fin ⟨hfin.1, hfin.2.1, hfin.2.2.1, hfin.2.2.2.1,
    hfin.2.2.2.2⟩ _ rest (ro + sumEncLen g.body) ve _ (Nat.le_refl _)]
  have hro : ro + sumEncLen g.body + encLen g.fin = ro + sumEncLen (groupRecords g) := by
    simp [groupRecords, sumEncLen_append, sumEncLen]
    omega
  have hparsed : (acc ++ parsedRecords lf ro g.body) ++
      [(⟨g.fin.Key, g.fin.Value, g.fin.UserMeta, g.fin.ExpiresAt, g.fin.meta,
        ro + sumEncLen g.body, (headerEncode (entryHeader g.fin)).length, false⟩,
        ⟨lf.fid, encLen g.fin, ro + sumEncLen g.body⟩)] =
      acc ++ parsedRecords lf ro (groupRecords g) := by
    simp only [groupRecords, parsedRecords_append, parsedRecords, List.append_assoc]
  rw [hro, hparsed]

theorem iterateAux_groups (ks : Keystream) (lf : logFileMeta) :
    ∀ (gs : List TxnGroup), (∀ g ∈ gs, groupWF g) → gs ≠ [] →
    ∀ fuel rest ro ve acc,
      (encodeRecords ks lf ro (flatRecords gs) ++ rest).length ≤ fuel →
      iterateAux ks lf fuel (encodeRecords ks lf ro (flatRecords gs) ++ rest)
          ro 0 ve acc =
        iterateAux ks lf rest.length rest (ro + sumEncLen (flatRecords gs)) 0
          (ro + sumEncLen (flatRecords gs))
          (acc ++ parsedRecords lf ro (flatRecords gs)) := by
  intro gs
  induction gs with
  | nil => intro _ hne; exact absurd rfl hne
  | cons g gs ih =>
    intro hwf _ fuel rest ro ve acc hfuel
    have hsplit : encodeRecords ks lf ro (flatRecords (g :: gs)) ++ rest =
        encodeRecords ks lf ro (groupRecords g) ++
          (encodeRecords ks lf (ro + sumEncLen (groupRecords g))
            (flatRecords gs) ++ rest) := by
      simp only [flatRecords, encodeRecords_append, List.append_assoc]
    rw [hsplit] at hfuel ⊢
    rw [iterateAux_group ks lf g (hwf g (List.mem_cons_self g gs)) fuel _ ro ve acc hfuel]
    have hflat : sumEncLen (flatRecords (g :: gs)) =
        sumEncLen (groupRecords g) + sumEncLen (flatRecords gs) := by
      simp [flatRecords, sumEncLen_append]
    have hparsedflat : parsedRecords lf ro (flatRecords (g :: gs)) =
        parsedRecords lf ro (groupRecords g) ++
          parsedRecords lf (ro + sumEncLen (groupRecords g)) (flatRecords gs) := by
      simp [flatRecords, parsedRecords_append]
    cases hgs : gs with
    | nil =>
      subst hgs
      simp only [flatRecords, encodeRecords, List.nil_append, sumEncLen,
        Nat.add_zero, parsedRecords, List.append_nil] at hflat hparsedflat ⊢
    | cons g2 gs2 =>
      rw [← hgs]
      have hne2 : gs ≠ [] := by rw [hgs]; exact List.cons_ne_nil g2 gs2
      rw [ih (fun x hx => hwf x (List.mem_cons_of_mem g hx)) hne2 _ rest
        (ro + sumEncLen (groupRecords g)) (ro + sumEncLen (groupRecords g))
        (acc ++ parsedRecords lf ro (groupRecords g)) (Nat.le_refl _)]
      rw [hflat, hparsedflat]
      have h4 : ro + (sumEncLen (groupRecords g) + sumEncLen (flatRecords gs)) =
          ro + sumEncLen (groupRecords g) + sumEncLen (flatRecords gs) := by omega
      rw [h4, List.append_assoc]

theorem mkLogHeader_length (lf : logFileMeta) (hbase : lf.baseIV.length = 12) :
    (mkLogHeader lf).length = 20 := by
  simp [mkLogHeader, List.length_append, u64be_length, hbase]

theorem sumEncLen_pos_of_ne_nil (es : List Entry) (h : es ≠ []) :
    0 < sumEncLen es := by
  cases es with
  | nil => exact absurd rfl h
  | cons e es =>
    have := encLen_pos e
    simp only [sumEncLen]
    omega

theorem flat_sumEncLen_pos (gs : List TxnGroup) (h : gs ≠ []) :
    0 < sumEncLen (flatRecords gs) := by
  cases gs with
  | nil => exact absurd rfl h
  | cons g gs =>
    have hfin := encLen_pos g.fin
    simp only [flatRecords, sumEncLen_append, groupRecords]
    have h2 : 0 < sumEncLen (g.body ++ [g.fin]) := by
      simp only [sumEncLen_append, sumEncLen]
      omega
    simp only [sumEncLen_append, sumEncLen] at h2 ⊢
    omega

theorem iterate_committed_then_torn (ks : Keystream) (lf : logFileMeta)
    (gs : List TxnGroup) (ts2 : Nat) (torn : List Entry)
    (hbase : lf.baseIV.length = 12)
    (hgs : ∀ g ∈ gs, groupWF g) (hgsne : gs ≠ [])
    (htorn : ∀ e ∈ torn, txnWF ts2 e) :
    iterate ks lf
        (mkLogHeader lf ++ encodeRecords ks lf 20 (flatRecords gs ++ torn)) 0 =
      (parsedRecords lf 20 (flatRecords gs) ++
        parsedRecords lf (20 + sumEncLen (flatRecords gs)) torn,
       20 + sumEncLen (flatRecords gs)) := by
  unfold iterate
  simp only [lfHeaderSize, eq_self_iff_true, if_true]
  have hdrop : (mkLogHeader lf ++
      encodeRecords ks lf 20 (flatRecords gs ++ torn)).drop 20 =
      encodeRecords ks lf 20 (flatRecords gs ++ torn) :=
    List.drop_left' (mkLogHeader_length lf hbase)
  rw [hdrop]
  rw [encodeRecords_append]
  have hfuel : (encodeRecords ks lf 20 (flatRecords gs) ++
      encodeRecords ks lf (20 + sumEncLen (flatRecords gs)) torn).length ≤
      (mkLogHeader lf ++
        (encodeRecords ks lf 20 (flatRecords gs) ++
          encodeRecords ks lf (20 + sumEncLen (flatRecords gs)) torn)).length := by
    simp only [List.length_append, encodeRecords_length, sumEncLen_append]
    omega
  rw [iterateAux_groups ks lf gs hgs hgsne _ _ 20 20 [] hfuel]
  have htornnil : encodeRecords ks lf (20 + sumEncLen (flatRecords gs)) torn =
      encodeRecords ks lf (20 + sumEncLen (flatRecords gs)) torn ++ [] := by
    rw [List.append_nil]
  rw [htornnil]
  simp only [List.nil_append]
  rw [iterateAux_txnBody ks lf torn ts2 htorn _ []
    (20 + sumEncLen (flatRecords gs)) 0 (20 + sumEncLen (flatRecords gs))
    (parsedRecords lf 20 (flatRecords gs)) (Or.inl rfl) (Nat.le_refl _)]
  simp only [List.length_nil, iterateAux]

/-- C2 counterexample: on a WAL whose final `TXN` group has no matching
`FIN_TXN` marker, replay does NOT invoke the handler only on the
committed transactions' entries: the torn record's key appears among
the delivered records (and so does the commit marker itself), while the
file is indeed truncated to the end of the committed transaction.  This
refutes the claim's "no entry of the torn final transaction is
delivered". -/
theorem C2_counterexample :
    (replayLog cexKs cexLf true true [] cexContent 0).1.map
        (fun p => (p.1.Key, p.1.meta)) =
      [(cexE1.Key, 64), (cexFin.Key, 128), (cexTorn.Key, 64)] ∧
    cexTorn.Key ∈ (replayLog cexKs cexLf true true [] cexContent 0).1.map
        (fun p => p.1.Key) ∧
    (replayLog cexKs cexLf true true [] cexContent 0).2 =
      Except.ok (mkLogHeader cexLf ++ encodeRecords cexKs cexLf 20 [cexE1, cexFin]) := by
  decide

/-- C2 (amended): for every WAL file consisting of committed
transactions followed by a final group of same-timestamp `TXN`-marked
records with no matching `FIN_TXN` commit marker, replay invokes the
caller's handler on every record it successfully parses — all records
of the committed transactions (including their `FIN_TXN` markers)
followed by the records of the torn final transaction — and truncates
the file to the offset immediately after the last record of the last
committed transaction. -/
theorem C2_replay_torn_txn_amended (ks : Keystream) (lf : logFileMeta)
    (gs : List TxnGroup) (ts2 : Nat) (torn : List Entry)
    (isMax : Bool) (fresh : List Nat)
    (hbase : lf.baseIV.length = 12)
    (hgs : ∀ g ∈ gs, groupWF g) (hgsne : gs ≠ [])
    (htorn : ∀ e ∈ torn, txnWF ts2 e) (htne : torn ≠ []) :
    replayLog ks lf true isMax fresh
        (mkLogHeader lf ++ encodeRecords ks lf 20 (flatRecords gs ++ torn)) 0 =
      (parsedRecords lf 20 (flatRecords gs) ++
        parsedRecords lf (20 + sumEncLen (flatRecords gs)) torn,
       Except.ok (mkLogHeader lf ++ encodeRecords ks lf 20 (flatRecords gs))) := by
  have hL := flat_sumEncLen_pos gs hgsne
  have hT := sumEncLen_pos_of_ne_nil torn htne
  have hclen : (mkLogHeader lf ++
      encodeRecords ks lf 20 (flatRecords gs ++ torn)).length =
      20 + sumEncLen (flatRecords gs) + sumEncLen torn := by
    simp only [List.length_append, mkLogHeader_length lf hbase,
      encodeRecords_length, sumEncLen_append]
    omega
  unfold replayLog
  rw [iterate_committed_then_torn ks lf gs ts2 torn hbase hgs hgsne htorn]
  simp only
  rw [if_neg (by rw [hclen]; omega)]
  rw [if_neg (by simp)]
  rw [if_neg (by simp only [lfHeaderSize]; omega)]
  have htake : (mkLogHeader lf ++
      encodeRecords ks lf 20 (flatRecords gs ++ torn)).take
        (20 + sumEncLen (flatRecords gs)) =
      mkLogHeader lf ++ encodeRecords ks lf 20 (flatRecords gs) := by
    rw [encodeRecords_append, ← List.append_assoc]
    refine List.take_left' ?_
    simp only [List.length_append, mkLogHeader_length lf hbase,
      encodeRecords_length]
  rw [htake]

theorem C2_witness :
    replayLog cexKs cexLf true true []
        (mkLogHeader cexLf ++ encodeRecords cexKs cexLf 20
          (flatRecords [⟨1, [cexE1], cexFin⟩] ++ [cexTorn])) 0 =
      (parsedRecords cexLf 20 (flatRecords [⟨1, [cexE1], cexFin⟩]) ++
        parsedRecords cexLf (20 + sumEncLen (flatRecords [⟨1, [cexE1], cexFin⟩]))
          [cexTorn],
       Except.ok (mkLogHeader cexLf ++ encodeRecords cexKs cexLf 20
         (flatRecords [⟨1, [cexE1], cexFin⟩]))) :=
  C2_replay_torn_txn_amended cexKs cexLf [⟨1, [cexE1], cexFin⟩] 2 [cexTorn]
    true [] (by decide) (by decide) (List.cons_ne_nil _ _) (by decide)
    (List.cons_ne_nil _ _)

theorem walStep_fst_curWal (opt : Opts) (ks : Keystream) (c : WCtx) (e : Entry) :
    (walStep opt ks c e).1.curWal = c.curWal := by
  unfold walStep
  dsimp only
  split <;> rfl

theorem walStep_snd (opt : Opts) (ks : Keystream) (c : WCtx) (e : Entry) :
    (walStep opt ks c e).2 =
      ⟨c.curWal, encLen e, c.st.wal.writableOffset + c.wbuf.length⟩ := by
  unfold walStep
  dsimp only
  split <;> simp only [encodeEntry_snd]

theorem walStep_abs (opt : Opts) (ks : Keystream) (c : WCtx) (e : Entry) :
    (walStep opt ks c e).1.st.wal.writableOffset +
        (walStep opt ks c e).1.wbuf.length =
      c.st.wal.writableOffset + c.wbuf.length + encLen e := by
  have hel := encLen_pos e
  unfold walStep
  dsimp only
  split
  · rename_i h
    simp only [flushBufToFile]
    rw [if_neg (by
      simp only [List.length_append, encodeEntry_fst_length]
      omega)]
    simp only [List.length_append, encodeEntry_fst_length, List.length_nil]
    omega
  · simp only [List.length_append, encodeEntry_fst_length]
    omega

theorem vlogStep_wal (opt : Opts) (ks : Keystream) (seed : Seed) (c : WCtx)
    (e : Entry) : (vlogStep opt ks seed c e).1.st.wal = c.st.wal := by
  unfold vlogStep
  dsimp only
  split_ifs <;> rfl

theorem vlogStep_curWal (opt : Opts) (ks : Keystream) (seed : Seed) (c : WCtx)
    (e : Entry) : (vlogStep opt ks seed c e).1.curWal = c.curWal := by
  unfold vlogStep
  dsimp only
  split_ifs <;> rfl

theorem vlogStep_wbuf (opt : Opts) (ks : Keystream) (seed : Seed) (c : WCtx)
    (e : Entry) : (vlogStep opt ks seed c e).1.wbuf = c.wbuf := by
  unfold vlogStep
  dsimp only
  split_ifs <;> rfl

theorem processEntry_curWal (opt : Opts) (ks : Keystream) (seed : Seed)
    (r : ReqCtx) (e : Entry) :
    (processEntry opt ks seed r e).ctx.curWal = r.ctx.curWal := by
  unfold processEntry
  split
  · rfl
  · split
    · simp only [walStep_fst_curWal]
    · simp only [vlogStep_curWal, walStep_fst_curWal]

theorem processEntry_walAbs_skip (opt : Opts) (ks : Keystream) (seed : Seed)
    (r : ReqCtx) (e : Entry) (hs : e.skipVlog = true) :
    (processEntry opt ks seed r e).ctx.st.wal.writableOffset +
        (processEntry opt ks seed r e).ctx.wbuf.length =
      r.ctx.st.wal.writableOffset + r.ctx.wbuf.length := by
  unfold processEntry
  simp [hs]

theorem processEntry_walAbs_nonskip (opt : Opts) (ks : Keystream) (seed : Seed)
    (r : ReqCtx) (e : Entry) (hs : e.skipVlog = false) :
    (processEntry opt ks seed r e).ctx.st.wal.writableOffset +
        (processEntry opt ks seed r e).ctx.wbuf.length =
      r.ctx.st.wal.writableOffset + r.ctx.wbuf.length + encLen e := by
  unfold processEntry
  simp only [hs, Bool.false_eq_true, if_false]
  split
  · simp only [walStep_abs]
  · simp only [vlogStep_wal, vlogStep_wbuf, walStep_abs]

theorem processEntry_head_skip (opt : Opts) (ks : Keystream) (seed : Seed)
    (r : ReqCtx) (e : Entry) (hs : e.skipVlog = true) :
    (processEntry opt ks seed r e).head = r.head := by
  unfold processEntry
  simp [hs]

theorem processEntry_head_nonskip (opt : Opts) (ks : Keystream) (seed : Seed)
    (r : ReqCtx) (e : Entry) (hs : e.skipVlog = false) :
    (processEntry opt ks seed r e).head =
      ⟨r.ctx.curWal, encLen e,
        r.ctx.st.wal.writableOffset + r.ctx.wbuf.length⟩ := by
  unfold processEntry
  simp only [hs, Bool.false_eq_true, if_false]
  split <;> simp only [walStep_snd]

theorem foldl_processEntry_head (opt : Opts) (ks : Keystream) (seed : Seed) :
    ∀ (es : List Entry) (r : ReqCtx),
      (es.foldl (processEntry opt ks seed) r).head =
        lastWalPtr r.ctx.curWal
          (r.ctx.st.wal.writableOffset + r.ctx.wbuf.length) r.head es := by
  intro es
  induction es with
  | nil => intro r; rfl
  | cons e es ih =>
    intro r
    rw [List.foldl_cons, ih]
    cases hs : e.skipVlog with
    | true =>
      rw [processEntry_curWal, processEntry_head_skip opt ks seed r e hs,
        processEntry_walAbs_skip opt ks seed r e hs]
      simp only [lastWalPtr, hs, if_true]
    | false =>
      rw [processEntry_curWal, processEntry_head_nonskip opt ks seed r e hs,
        processEntry_walAbs_nonskip opt ks seed r e hs]
      simp only [lastWalPtr, hs, Bool.false_eq_true, if_false]

/-- C4 counterexample: with two non-skipped entries, each of encoded
length 11 starting at WAL offset 20, the request's head pointer after
`write`'s per-request processing is the WAL pointer of the SECOND
(last) non-skipped entry, offset 31 — not the pointer `(0, 11, 20)` of
the first non-skipped entry the claim requires: the head is overwritten
by every non-skipped entry. -/
theorem C4_counterexample :
    (processRequest cexOpts cexKs cexSeed cexCtx cexReq).2.head =
      (⟨0, 11, 31⟩ : ValuePointer) ∧
    (processRequest cexOpts cexKs cexSeed cexCtx cexReq).2.head ≠
      (⟨0, 11, 20⟩ : ValuePointer) ∧
    encLen ⟨[7], [1], 0, 0, 0, 0, 0, false⟩ = 11 := by
  decide

/-- C4 (corrected): for every request processed by `write`, the
request's head value pointer equals the WAL pointer `(fid, offset,
length)` of the LAST entry of that request that was not skipped
(`lastWalPtr` folds the running absolute WAL offset over the entries,
replacing the head at every non-skipped entry); if every entry is
skipped the head keeps the request's incoming value. -/
theorem C4_head_last_nonskipped (opt : Opts) (ks : Keystream) (seed : Seed)
    (c : WCtx) (req : Request) :
    (processRequest opt ks seed c req).2.head =
      lastWalPtr c.curWal (c.st.wal.writableOffset + c.wbuf.length)
        req.head req.Entries := by
  unfold processRequest
  dsimp only
  exact foldl_processEntry_head opt ks seed req.Entries ⟨c, [], req.head, 0, 0, []⟩

theorem validateWritesAux_eq_overflow (opt : Opts) :
    ∀ (reqs : List Request) (off : Nat),
      validateWritesAux opt off reqs = some VErr.sizeExceeded ↔
        batchOverflows opt off reqs := by
  intro reqs
  induction reqs with
  | nil =>
    intro off
    simp [validateWritesAux, batchOverflows, simWalOffsets]
  | cons req rest ih =>
    intro off
    by_cases hov : off + estimateRequestSize req > maxVlogFileSize
    · simp only [validateWritesAux, if_pos hov, batchOverflows, simWalOffsets]
      constructor
      · intro _
        exact ⟨(off, estimateRequestSize req), List.mem_cons_self _ _, hov⟩
      · intro _
        trivial
    · by_cases hrot : off + estimateRequestSize req ≥ opt.valueLogFileSize
      · simp only [validateWritesAux, if_neg hov, if_pos hrot]
        rw [ih 0]
        simp only [batchOverflows, simWalOffsets, if_pos hrot, List.mem_cons]
        constructor
        · rintro ⟨p, hp, hgt⟩
          exact ⟨p, Or.inr hp, hgt⟩
        · rintro ⟨p, hp, hgt⟩
          rcases hp with hp | hp
          · subst hp; exact absurd hgt hov
          · exact ⟨p, hp, hgt⟩
      · simp only [validateWritesAux, if_neg hov, if_neg hrot]
        rw [ih (off + estimateRequestSize req)]
        simp only [batchOverflows, simWalOffsets, if_neg hrot, List.mem_cons]
        constructor
        · rintro ⟨p, hp, hgt⟩
          exact ⟨p, Or.inr hp, hgt⟩
        · rintro ⟨p, hp, hgt⟩
          rcases hp with hp | hp
          · subst hp; exact absurd hgt hov
          · exact ⟨p, hp, hgt⟩

/-- C5: `write` performs pre-validation before any file I/O: it sums
the worst-case encoded record sizes per request from the current WAL
offset, resetting the running offset to `0` when the rotation
threshold is reached within the batch; if any single request would
push the simulated offset beyond `u32::MAX` (`batchOverflows`), the
whole batch fails with the size-exceeded error — `validateWrites`
returns it and `write` returns it without producing any new log-set
state, so no bytes reach any log file. -/
theorem C5_prevalidation_size_exceeded (opt : Opts) (ks : Keystream)
    (seed : Seed) (st : VLState) (reqs : List Request)
    (h : batchOverflows opt st.wal.writableOffset reqs) :
    validateWrites opt st reqs = some VErr.sizeExceeded ∧
    write opt ks seed st reqs = Except.error VErr.sizeExceeded := by
  have hv : validateWrites opt st reqs = some VErr.sizeExceeded := by
    unfold validateWrites
    exact (validateWritesAux_eq_overflow opt reqs st.wal.writableOffset).mpr h
  refine ⟨hv, ?_⟩
  unfold write
  rw [hv]

theorem C5_witness :
    validateWrites cexOpts cexState [bigReq] = some VErr.sizeExceeded ∧
    write cexOpts cexKs cexSeed cexState [bigReq] =
      Except.error VErr.sizeExceeded :=
  C5_prevalidation_size_exceeded cexOpts cexKs cexSeed cexState [bigReq] (by
    have h1 : bigReq.Entries =
        [⟨[], List.replicate (2 ^ 32) 0, 0, 0, 0, 0, 0, false⟩] := rfl
    have hest : estimateRequestSize bigReq = maxHeaderSize + 2 ^ 32 + 4 := by
      rw [estimateRequestSize, h1, List.foldl_cons, List.foldl_nil]
      rw [show ((⟨[], List.replicate (2 ^ 32) 0, 0, 0, 0, 0, 0, false⟩ :
        Entry)).Value = List.replicate (2 ^ 32) 0 from rfl]
      rw [show ((⟨[], List.replicate (2 ^ 32) 0, 0, 0, 0, 0, 0, false⟩ :
        Entry)).Key = ([] : List Nat) from rfl]
      rw [List.length_replicate, List.length_nil]
      rw [show maxHeaderSize = 22 from rfl]
      omega
    have hgt : ((cexState.wal.writableOffset, estimateRequestSize bigReq) :
        Nat × Nat).1 + ((cexState.wal.writableOffset, estimateRequestSize bigReq) :
        Nat × Nat).2 > maxVlogFileSize := by
      rw [show ((cexState.wal.writableOffset, estimateRequestSize bigReq) :
        Nat × Nat).1 = 20 from rfl]
      rw [show ((cexState.wal.writableOffset, estimateRequestSize bigReq) :
        Nat × Nat).2 = estimateRequestSize bigReq from rfl]
      rw [hest, show maxHeaderSize = 22 from rfl,
        show maxVlogFileSize = 2 ^ 32 - 1 from rfl]
      omega
    exact ⟨(cexState.wal.writableOffset, estimateRequestSize bigReq),
      List.mem_cons_self _ _, hgt⟩)

theorem findFile_flushMap (m : List (Nat × FileM)) (fid : Nat) (buf : List Nat) :
    findFile (m.map (fun p =>
        if p.1 == fid then (p.1, ⟨p.2.meta, p.2.content ++ buf⟩) else p)) fid =
      (findFile m fid).map (fun f => ⟨f.meta, f.content ++ buf⟩) := by
  unfold findFile
  induction m with
  | nil => rfl
  | cons a t ih =>
    by_cases h : (a.1 == fid) = true
    · simp only [List.map_cons, if_pos h, if_true, List.find?_cons, h,
        Option.map_some']
    · simp only [List.map_cons, if_neg h, List.find?_cons]
      simp only [Bool.not_eq_true] at h
      simp only [h]
      exact ih

theorem walStep_vlog (opt : Opts) (ks : Keystream) (c : WCtx) (e : Entry) :
    (walStep opt ks c e).1.st.vlog = c.st.vlog := by
  unfold walStep
  dsimp only
  split <;> rfl

theorem walStep_vbuf (opt : Opts) (ks : Keystream) (c : WCtx) (e : Entry) :
    (walStep opt ks c e).1.vbuf = c.vbuf := by
  unfold walStep
  dsimp only
  split <;> rfl

theorem walStep_curVlog (opt : Opts) (ks : Keystream) (c : WCtx) (e : Entry) :
    (walStep opt ks c e).1.curVlog = c.curVlog := by
  unfold walStep
  dsimp only
  split <;> rfl

theorem walStep_vlogStream (opt : Opts) (ks : Keystream) (c : WCtx) (e : Entry) :
    vlogStream (walStep opt ks c e).1 = vlogStream c := by
  unfold vlogStream
  rw [walStep_vlog, walStep_curVlog, walStep_vbuf]

theorem vlogStep_walStream (opt : Opts) (ks : Keystream) (seed : Seed)
    (c : WCtx) (e : Entry) :
    walStream (vlogStep opt ks seed c e).1 = walStream c := by
  unfold walStream
  rw [vlogStep_wal, vlogStep_curWal, vlogStep_wbuf]

/-- `walStep` appends exactly the record encoded with the entry's FULL
meta byte to the WAL stream, whether or not it flushes the buffer. -/
theorem walStep_stream (opt : Opts) (ks : Keystream) (c : WCtx) (e : Entry)
    (f : FileM) (hf : findFile c.st.wal.filesMap c.curWal = some f) :
    walStream (walStep opt ks c e).1 =
      walStream c ++
        (encodeEntry ks f.meta e
          (c.st.wal.writableOffset + c.wbuf.length)).1 := by
  unfold walStep walStream
  dsimp only
  split
  · dsimp only
    unfold flushBufToFile
    rw [if_neg (by
      simp only [List.length_append, encodeEntry_fst_length]
      have := encLen_pos e
      omega)]
    dsimp only
    rw [findFile_flushMap, hf]
    simp only [Option.map_some', Option.getD_some]
    simp only [List.append_nil, List.append_assoc]
  · dsimp only
    rw [hf]
    simp only [Option.getD_some, List.append_assoc]

/-- `vlogStep` appends exactly the record encoded with the TXN/FIN_TXN
bits CLEARED to the VLOG stream (when a vlog file already exists),
whether or not it flushes the buffer. -/
theorem vlogStep_stream (opt : Opts) (ks : Keystream) (seed : Seed)
    (c : WCtx) (e : Entry) (f : FileM)
    (hne : c.st.vlog.filesMap.isEmpty = false)
    (hf : findFile c.st.vlog.filesMap c.curVlog = some f) :
    vlogStream (vlogStep opt ks seed c e).1 =
      vlogStream c ++
        (encodeEntry ks f.meta { e with meta := clearTxnBits e.meta }
          (c.st.vlog.writableOffset + c.vbuf.length)).1 := by
  unfold vlogStep vlogStream
  dsimp only
  simp only [hne, Bool.false_eq_true, if_false]
  split
  · dsimp only
    unfold flushBufToFile
    rw [if_neg (by
      simp only [List.length_append, encodeEntry_fst_length]
      have := encLen_pos { e with meta := clearTxnBits e.meta }
      omega)]
    dsimp only
    rw [findFile_flushMap, hf]
    simp only [Option.map_some', Option.getD_some]
    simp only [List.append_nil, List.append_assoc]
  · dsimp only
    rw [hf]
    simp only [Option.getD_some, List.append_assoc]

/-- The value pointer `vlogStep` produces (when a vlog file already
exists): the current vlog fid, the full encoded record length, and the
absolute VLOG offset. -/
theorem vlogStep_ptr (opt : Opts) (ks : Keystream) (seed : Seed)
    (c : WCtx) (e : Entry) (hne : c.st.vlog.filesMap.isEmpty = false) :
    (vlogStep opt ks seed c e).2.1 =
      ⟨c.curVlog, encLen { e with meta := clearTxnBits e.meta },
        c.st.vlog.writableOffset + c.vbuf.length⟩ := by
  unfold vlogStep
  dsimp only
  simp only [hne, Bool.false_eq_true, if_false]
  split <;> simp only [encodeEntry_snd]

/-- The entry `vlogStep` hands back has its meta byte restored to the
original value, hence equals the input entry. -/
theorem vlogStep_restores_meta (opt : Opts) (ks : Keystream) (seed : Seed)
    (c : WCtx) (e : Entry) : (vlogStep opt ks seed c e).2.2 = e := by
  unfold vlogStep
  dsimp only
  split_ifs <;> (cases e; rfl)

/-- C7: for every entry `write` sends to both logs (not skipped, value
too large for the LSM), the record appended to the VLOG stream is
encoded from the entry with the `TXN` and `FIN_TXN` meta bits cleared
(`clearTxnBits`, whose result has no bit of `bitTxn ||| bitFinTxn`),
while the record appended to the WAL stream for the same entry is
encoded with the entry's full meta byte; and the entry the loop stores
back has its meta field restored to the original value. -/
theorem C7_txn_bits_stripped (opt : Opts) (ks : Keystream) (seed : Seed)
    (r : ReqCtx) (e : Entry) (wf vf : FileM)
    (hs : e.skipVlog = false) (hl : shouldWriteValueToLSM opt e = false)
    (hw : findFile r.ctx.st.wal.filesMap r.ctx.curWal = some wf)
    (hne : r.ctx.st.vlog.filesMap.isEmpty = false)
    (hv : findFile r.ctx.st.vlog.filesMap r.ctx.curVlog = some vf) :
    walStream (processEntry opt ks seed r e).ctx =
      walStream r.ctx ++
        (encodeEntry ks wf.meta e
          (r.ctx.st.wal.writableOffset + r.ctx.wbuf.length)).1 ∧
    vlogStream (processEntry opt ks seed r e).ctx =
      vlogStream r.ctx ++
        (encodeEntry ks vf.meta { e with meta := clearTxnBits e.meta }
          (r.ctx.st.vlog.writableOffset + r.ctx.vbuf.length)).1 ∧
    (processEntry opt ks seed r e).entriesOut = r.entriesOut ++ [e] ∧
    clearTxnBits e.meta &&& (bitTxn ||| bitFinTxn) = 0 := by
  unfold processEntry
  simp only [hs, Bool.false_eq_true, if_false, hl]
  refine ⟨?_, ?_, ?_, ?_⟩
  · rw [vlogStep_walStream, walStep_stream opt ks r.ctx e wf hw]
  · rw [vlogStep_stream opt ks seed _ e vf
      (by rw [walStep_vlog]; exact hne)
      (by rw [walStep_vlog, walStep_curVlog]; exact hv)]
    rw [walStep_vlogStream, walStep_vlog, walStep_vbuf, hs]
  · rw [vlogStep_restores_meta]
  · unfold clearTxnBits bitTxn bitFinTxn
    rw [Nat.and_assoc, show (63 &&& (64 ||| 128) : Nat) = 0 from rfl,
      Nat.and_zero]

theorem C7_witness :
    walStream (processEntry cexOpts cexKs cexSeed cexR7 cexE7).ctx =
      walStream cexR7.ctx ++
        (encodeEntry cexKs cexWalFile.meta cexE7
          (cexR7.ctx.st.wal.writableOffset + cexR7.ctx.wbuf.length)).1 ∧
    vlogStream (processEntry cexOpts cexKs cexSeed cexR7 cexE7).ctx =
      vlogStream cexR7.ctx ++
        (encodeEntry cexKs cexVlogFile.meta
          { cexE7 with meta := clearTxnBits cexE7.meta }
          (cexR7.ctx.st.vlog.writableOffset + cexR7.ctx.vbuf.length)).1 ∧
    (processEntry cexOpts cexKs cexSeed cexR7 cexE7).entriesOut =
      cexR7.entriesOut ++ [cexE7] ∧
    clearTxnBits cexE7.meta &&& (bitTxn ||| bitFinTxn) = 0 :=
  C7_txn_bits_stripped cexOpts cexKs cexSeed cexR7 cexE7 cexWalFile cexVlogFile
    rfl (by decide) rfl rfl rfl

/-- C10: the length `encodeEntry` returns is exactly the number of
bytes it appended to the buffer — encoded header length + key length +
value length + 4 CRC bytes — and for every entry `write` sends to the
VLOG the writer stores exactly that length (of the record encoded with
the TXN bits cleared) in the returned value pointer's `Len` field, so
the pointer covers the whole record including the CRC. -/
theorem C10_encoded_length_stored (opt : Opts) (ks : Keystream) (seed : Seed)
    (r : ReqCtx) (e : Entry) (lf : logFileMeta) (off : Nat)
    (hs : e.skipVlog = false) (hl : shouldWriteValueToLSM opt e = false)
    (hne : r.ctx.st.vlog.filesMap.isEmpty = false) :
    (encodeEntry ks lf e off).2 = (encodeEntry ks lf e off).1.length ∧
    (encodeEntry ks lf e off).2 =
      (headerEncode (entryHeader e)).length + e.Key.length + e.Value.length + 4 ∧
    (processEntry opt ks seed r e).Ptrs =
      r.Ptrs ++ [⟨r.ctx.curVlog,
        encLen { e with meta := clearTxnBits e.meta },
        r.ctx.st.vlog.writableOffset + r.ctx.vbuf.length⟩] := by
  refine ⟨?_, ?_, ?_⟩
  · rw [encodeEntry_snd, encodeEntry_fst_length]
  · rw [encodeEntry_snd]
    rfl
  · unfold processEntry
    simp only [hs, Bool.false_eq_true, if_false, hl]
    rw [vlogStep_ptr opt ks seed _ e (by rw [walStep_vlog]; exact hne)]
    rw [walStep_vlog, walStep_curVlog, walStep_vbuf, hs]

theorem C10_witness :
    (encodeEntry cexKs cexVlogFile.meta cexE7 20).2 =
      (encodeEntry cexKs cexVlogFile.meta cexE7 20).1.length ∧
    (encodeEntry cexKs cexVlogFile.meta cexE7 20).2 =
      (headerEncode (entryHeader cexE7)).length + cexE7.Key.length +
        cexE7.Value.length + 4 ∧
    (processEntry cexOpts cexKs cexSeed cexR7 cexE7).Ptrs =
      cexR7.Ptrs ++ [⟨cexR7.ctx.curVlog,
        encLen { cexE7 with meta := clearTxnBits cexE7.meta },
        cexR7.ctx.st.vlog.writableOffset + cexR7.ctx.vbuf.length⟩] :=
  C10_encoded_length_stored cexOpts cexKs cexSeed cexR7 cexE7
    cexVlogFile.meta 20 rfl (by decide) rfl

/-- C6: `discardEntry` returns true iff at least one of: the LSM
version differs from the timestamp parsed from the record's key; the
LSM value is deleted or expired; its meta has no VALUE_PTR bit; its
meta has the FIN_TXN bit; or the key carries the move prefix and the
underlying key stripped of the prefix has no live version
(version 0). -/
theorem C6_discardEntry_iff (get : List Nat → ValueStruct) (now : Nat)
    (e : Entry) (vs : ValueStruct) :
    discardEntry get now e vs = true ↔
      (vs.Version ≠ parseTs e.Key ∨
       isDeletedOrExpired now vs.Meta vs.ExpiresAt = true ∨
       vs.Meta &&& bitValuePointer = 0 ∨
       vs.Meta &&& bitFinTxn > 0 ∨
       (badgerMove.isPrefixOf e.Key = true ∧
        (get (e.Key.drop badgerMove.length)).Version = 0)) := by
  unfold discardEntry
  split_ifs with h1 h2 h3 h4 h5
  · exact iff_of_true rfl (Or.inl h1)
  · exact iff_of_true rfl (Or.inr (Or.inl h2))
  · exact iff_of_true rfl (Or.inr (Or.inr (Or.inl h3)))
  · exact iff_of_true rfl (Or.inr (Or.inr (Or.inr (Or.inl h4))))
  · rw [decide_eq_true_eq]
    constructor
    · intro hv
      exact Or.inr (Or.inr (Or.inr (Or.inr ⟨h5, hv⟩)))
    · intro hrhs
      rcases hrhs with h | h | h | h | ⟨_, hv⟩
      · exact absurd h h1
      · exact absurd h h2
      · exact absurd h h3
      · exact absurd h h4
      · exact hv
  · constructor
    · intro hff
      exact absurd hff (by simp)
    · intro hrhs
      rcases hrhs with h | h | h | h | ⟨hp, _⟩
      · exact absurd h h1
      · exact absurd h h2
      · exact absurd h h3
      · exact absurd h h4
      · exact absurd hp h5

/-- C8: FALSIFIED — `pickLog` has no guard excluding the current
writable file: its candidate loop ranges over ALL non-deleted fids and
its random fallback indexes the same list, so with the discard stats
pointing at the max fid the returned set contains the writable file
(fid 1 = `g8.maxFid`, which is present in the files map).
`valueLog.rewrite` then panics on its own assertion
`f.fid < maxFid` (src/value.go line 511). -/
theorem C8_pickLog_returns_writable :
    g8.maxFid ∈ pickLog g8 [(1, 5)] 1 0 ∧
    g8.maxFid = 1 ∧
    findFile g8.filesMap g8.maxFid = some cexVlogFile := by
  decide

/-- C9: for a GC rewrite of a file still in the map — if no iterator
is active at completion, the file leaves the files map and is
physically deleted immediately; otherwise its fid is appended to the
to-be-deleted list and the file stays in the map and on disk; and the
decrement of the iterator count that brings it to zero (count 1)
physically deletes exactly the files on that list, empties it, and
removes them from the map. -/
theorem C9_deferred_deletion (g : GCState) (fid : Nat)
    (hmem : ¬ findFile g.filesMap fid = none) :
    (g.numActiveIterators = 0 →
      rewriteFinish fid g = some { g with
        filesMap := removeFile g.filesMap fid,
        deletedFids := g.deletedFids ++ [fid] }) ∧
    (¬ g.numActiveIterators = 0 →
      rewriteFinish fid g = some { g with
        filesToBeDeleted := g.filesToBeDeleted ++ [fid] }) ∧
    (g.numActiveIterators = 1 →
      decrIteratorCount g = { g with
        filesMap := g.filesToBeDeleted.foldl removeFile g.filesMap,
        filesToBeDeleted := [],
        numActiveIterators := 0,
        deletedFids := g.deletedFids ++ g.filesToBeDeleted }) := by
  refine ⟨?_, ?_, ?_⟩
  · intro h0
    unfold rewriteFinish
    rw [if_neg hmem, if_pos h0]
  · intro hne
    unfold rewriteFinish
    rw [if_neg hmem, if_neg hne]
  · intro h1
    unfold decrIteratorCount
    rw [h1]
    norm_num

theorem C9_witness :
    (¬ findFile g9.filesMap 1 = none) ∧
    decrIteratorCount g9 = ⟨[], [], 1, 0, [1]⟩ :=
  ⟨by decide, by
    have h := (C9_deferred_deletion g9 1 (by decide)).2.2 rfl
    rw [h]
    decide⟩
